import Mathlib

/-!
# QoraNet — shallow embedding and verification of the QRC-20 / consensus spec claims

This file embeds the core data model and operations of the QoraNet node
(QRC-20 token engine, registry, ERC-20 bridge, transaction pool, consensus
block validation, fee oracle) as executable Lean definitions, translated
from the Rust source, and proves or refutes the spec's claims about them.

Modelling conventions:
* `H160` / `H256` addresses and hashes are modelled as `Nat`
  (`H160::from_low_u64_be(id)` becomes the число `id` itself);
* `U256` arithmetic is modelled on `Nat` (the mathematical values);
* `std::collections::HashMap` is modelled as an association list with
  first-match lookup, replace-first-or-append insertion and
  remove-first deletion — observationally equal to the HashMap API;
* Rust `&mut self` methods become functions returning the new state;
  fallible methods return `Except`; a reachable `unwrap()` panic is
  modelled as `Option.none`;
* `f64` fee arithmetic is modelled on `ℚ`, with the `as u64` cast
  modelled as `Int.toNat ∘ Int.floor` (equal to Rust's saturating
  truncation for every value this code produces).
-/

set_option autoImplicit false

namespace QoraNet

/-! ## Association-list model of `std::collections::HashMap` -/

/-- `HashMap::get`: first matching entry. -/
def hmGet {α β : Type} [DecidableEq α] : List (α × β) → α → Option β
  | [], _ => none
  | (k, v) :: rest, key => if k = key then some v else hmGet rest key

/-- `HashMap::insert`: replace the first entry with this key, or append. -/
def hmInsert {α β : Type} [DecidableEq α] : List (α × β) → α → β → List (α × β)
  | [], key, val => [(key, val)]
  | (k, v) :: rest, key, val =>
      if k = key then (k, val) :: rest else (k, v) :: hmInsert rest key val

/-- `HashMap::remove`: drop the first entry with this key. -/
def hmRemove {α β : Type} [DecidableEq α] : List (α × β) → α → List (α × β)
  | [], _ => []
  | (k, v) :: rest, key => if k = key then rest else (k, v) :: hmRemove rest key

/-- `map.get(&k).copied().unwrap_or(d)`. -/
def hmGetD {α β : Type} [DecidableEq α] (m : List (α × β)) (key : α) (d : β) : β :=
  (hmGet m key).getD d

/-- Sum of all stored values of a map (the `U256` values summed in `ℕ`). -/
def sumVals {α : Type} (m : List (α × Nat)) : Nat :=
  (m.map Prod.snd).sum

theorem hmGet_hmInsert_self {α β : Type} [DecidableEq α]
    (m : List (α × β)) (k : α) (v : β) :
    hmGet (hmInsert m k v) k = some v := by
  induction m with
  | nil => simp [hmGet, hmInsert]
  | cons hd tl ih =>
      obtain ⟨k0, v0⟩ := hd
      by_cases h : k0 = k <;> simp [hmGet, hmInsert, h, ih]

theorem hmGet_hmInsert_ne {α β : Type} [DecidableEq α]
    (m : List (α × β)) (k k' : α) (v : β) (h : k ≠ k') :
    hmGet (hmInsert m k v) k' = hmGet m k' := by
  induction m with
  | nil => simp [hmGet, hmInsert, h]
  | cons hd tl ih =>
      obtain ⟨k0, v0⟩ := hd
      by_cases h0 : k0 = k
      · subst h0
        simp [hmGet, hmInsert, h]
      · simp only [hmInsert, if_neg h0]
        by_cases h1 : k0 = k' <;> simp [hmGet, h1, ih]

/-- Inserting at a key: the new sum plus the old stored value equals the
old sum plus the new value (entries other than the first match untouched). -/
theorem sumVals_hmInsert {α : Type} [DecidableEq α]
    (m : List (α × Nat)) (k : α) (v : Nat) :
    sumVals (hmInsert m k v) + hmGetD m k 0 = sumVals m + v := by
  induction m with
  | nil => simp [sumVals, hmInsert, hmGetD, hmGet]
  | cons hd tl ih =>
      obtain ⟨k0, v0⟩ := hd
      by_cases h : k0 = k
      · subst h
        simp [hmInsert, sumVals, hmGetD, hmGet]
        omega
      · simp only [hmInsert, if_neg h, sumVals, List.map_cons, List.sum_cons,
          hmGetD, hmGet]
        simp only [sumVals, hmGetD] at ih
        omega

/-- The first stored value at a key never exceeds the sum of all values. -/
theorem hmGetD_le_sumVals {α : Type} [DecidableEq α]
    (m : List (α × Nat)) (k : α) :
    hmGetD m k 0 ≤ sumVals m := by
  induction m with
  | nil => simp [hmGetD, hmGet, sumVals]
  | cons hd tl ih =>
      obtain ⟨k0, v0⟩ := hd
      by_cases h : k0 = k
      · simp only [hmGetD, hmGet, if_pos h, Option.getD_some, sumVals,
          List.map_cons, List.sum_cons]
        omega
      · simp only [hmGetD, hmGet, if_neg h, sumVals, List.map_cons, List.sum_cons]
        simp only [hmGetD, sumVals] at ih
        omega

/-! ## QRC-20 errors and events (`src/qrc20/mod.rs`) -/

/-- `QRC20Error` (src/qrc20/mod.rs). -/
inductive QRC20Error where
  | TokenNotFound
  | InsufficientBalance (required available : Nat)
  | InsufficientAllowance (required available : Nat)
  | TokenPaused
  | OnlyOwner
  | SymbolExists (symbol : String)
  | InvalidAddress (address : String)
  | EVMExecutionFailed (reason : String)
  deriving DecidableEq, Repr

/-- `QRC20Event` (src/qrc20/mod.rs). -/
inductive QRC20Event where
  | Deploy (contract deployer : Nat) (name symbol : String) (total_supply : Nat)
  | Transfer (contract fromA toA : Nat) (amount : Nat)
  | Approval (contract ownerA spender : Nat) (amount : Nat)
  | Mint (contract toA : Nat) (amount : Nat)
  | Burn (contract fromA : Nat) (amount : Nat)
  | PauseStatusChanged (contract : Nat) (paused : Bool)
  | OwnershipTransferred (contract old_owner new_owner : Nat)
  deriving DecidableEq, Repr

/-! ## QRC20Token (`src/qrc20/token.rs`) -/

/-- `QRC20Token` (src/qrc20/token.rs). -/
structure QRC20Token where
  name : String
  symbol : String
  decimals : Nat
  total_supply : Nat
  contract_address : Nat
  balances : List (Nat × Nat)
  allowances : List (Nat × List (Nat × Nat))
  owner : Nat
  paused : Bool
  max_supply : Nat
  mintable : Bool
  burnable : Bool
  deriving DecidableEq, Repr

namespace QRC20Token

/-- `QRC20Token::new`. -/
def new (name symbol : String) (decimals : Nat) (total_supply : Nat)
    (owner : Nat) : QRC20Token where
  name := name
  symbol := symbol
  decimals := decimals
  total_supply := total_supply
  contract_address := 0
  balances := [(owner, total_supply)]
  allowances := []
  owner := owner
  paused := false
  max_supply := 0
  mintable := true
  burnable := true

/-- `QRC20Token::new_advanced`. -/
def new_advanced (name symbol : String) (decimals : Nat) (total_supply : Nat)
    (owner : Nat) (max_supply : Nat) (mintable burnable : Bool) : QRC20Token where
  name := name
  symbol := symbol
  decimals := decimals
  total_supply := total_supply
  contract_address := 0
  balances := [(owner, total_supply)]
  allowances := []
  owner := owner
  paused := false
  max_supply := max_supply
  mintable := mintable
  burnable := burnable

/-- `QRC20Token::balance_of`. -/
def balance_of (t : QRC20Token) (account : Nat) : Nat :=
  hmGetD t.balances account 0

/-- `QRC20Token::allowance`. -/
def allowance (t : QRC20Token) (ownerA spender : Nat) : Nat :=
  hmGetD (hmGetD t.allowances ownerA []) spender 0

/-- `QRC20Token::transfer`. -/
def transfer (t : QRC20Token) (fromA toA : Nat) (amount : Nat) :
    Except QRC20Error (QRC20Token × QRC20Event) :=
  if t.paused then .error .TokenPaused
  else
    let from_balance := t.balance_of fromA
    if from_balance < amount then
      .error (.InsufficientBalance amount from_balance)
    else
      let t1 := { t with balances := hmInsert t.balances fromA (from_balance - amount) }
      let to_balance := t1.balance_of toA
      let t2 := { t1 with balances := hmInsert t1.balances toA (to_balance + amount) }
      .ok (t2, .Transfer t.contract_address fromA toA amount)

/-- `QRC20Token::approve`. -/
def approve (t : QRC20Token) (ownerA spender : Nat) (amount : Nat) :
    Except QRC20Error (QRC20Token × QRC20Event) :=
  if t.paused then .error .TokenPaused
  else
    let inner := hmGetD t.allowances ownerA []
    let t1 := { t with allowances := hmInsert t.allowances ownerA (hmInsert inner spender amount) }
    .ok (t1, .Approval t.contract_address ownerA spender amount)

/-- `QRC20Token::transfer_from`. The `self.allowances.get_mut(&from).unwrap()`
after the allowance check is a reachable panic (amount = 0 with no allowances
entry for `from`); a panic is modelled as `none`. -/
def transfer_from (t : QRC20Token) (spender fromA toA : Nat) (amount : Nat) :
    Option (Except QRC20Error (QRC20Token × QRC20Event)) :=
  if t.paused then some (.error .TokenPaused)
  else
    let allow := t.allowance fromA spender
    if allow < amount then
      some (.error (.InsufficientAllowance amount allow))
    else
      let from_balance := t.balance_of fromA
      if from_balance < amount then
        some (.error (.InsufficientBalance amount from_balance))
      else
        match hmGet t.allowances fromA with
        | none => none
        | some inner =>
            let t1 := { t with
              allowances := hmInsert t.allowances fromA (hmInsert inner spender (allow - amount)) }
            let t2 := { t1 with balances := hmInsert t1.balances fromA (from_balance - amount) }
            let to_balance := t2.balance_of toA
            let t3 := { t2 with balances := hmInsert t2.balances toA (to_balance + amount) }
            some (.ok (t3, .Transfer t.contract_address fromA toA amount))

/-- `QRC20Token::mint`. -/
def mint (t : QRC20Token) (caller toA : Nat) (amount : Nat) :
    Except QRC20Error (QRC20Token × QRC20Event) :=
  if caller ≠ t.owner then .error .OnlyOwner
  else if t.mintable = false then .error (.EVMExecutionFailed "Token is not mintable")
  else if t.paused then .error .TokenPaused
  else if t.max_supply ≠ 0 ∧ t.max_supply < t.total_supply + amount then
    .error (.EVMExecutionFailed "Would exceed max supply")
  else
    let to_balance := t.balance_of toA
    let t1 := { t with
      balances := hmInsert t.balances toA (to_balance + amount),
      total_supply := t.total_supply + amount }
    .ok (t1, .Mint t.contract_address toA amount)

/-- `QRC20Token::burn`. -/
def burn (t : QRC20Token) (fromA : Nat) (amount : Nat) :
    Except QRC20Error (QRC20Token × QRC20Event) :=
  if t.burnable = false then .error (.EVMExecutionFailed "Token is not burnable")
  else if t.paused then .error .TokenPaused
  else
    let from_balance := t.balance_of fromA
    if from_balance < amount then
      .error (.InsufficientBalance amount from_balance)
    else
      let t1 := { t with
        balances := hmInsert t.balances fromA (from_balance - amount),
        total_supply := t.total_supply - amount }
      .ok (t1, .Burn t.contract_address fromA amount)

end QRC20Token

/-! ## Sequences of token operations -/

/-- One call to a mutating `QRC20Token` operation. -/
inductive TokenOp where
  | transfer (fromA toA : Nat) (amount : Nat)
  | approve (ownerA spender : Nat) (amount : Nat)
  | transferFrom (spender fromA toA : Nat) (amount : Nat)
  | mint (caller toA : Nat) (amount : Nat)
  | burn (fromA : Nat) (amount : Nat)
  deriving DecidableEq, Repr

/-- Apply one operation: a returned error leaves the token unchanged (all
error returns in the source precede every mutation); a panic is `none`. -/
def applyTokenOp (t : QRC20Token) : TokenOp → Option QRC20Token
  | .transfer f toA a =>
      match t.transfer f toA a with
      | .ok (t', _) => some t'
      | .error _ => some t
  | .approve o s a =>
      match t.approve o s a with
      | .ok (t', _) => some t'
      | .error _ => some t
  | .transferFrom sp f toA a =>
      match t.transfer_from sp f toA a with
      | none => none
      | some (.ok (t', _)) => some t'
      | some (.error _) => some t
  | .mint c toA a =>
      match t.mint c toA a with
      | .ok (t', _) => some t'
      | .error _ => some t
  | .burn f a =>
      match t.burn f a with
      | .ok (t', _) => some t'
      | .error _ => some t

/-- Run a sequence of token operations. -/
def execTokenOps (t : QRC20Token) : List TokenOp → Option QRC20Token
  | [] => some t
  | op :: rest =>
      match applyTokenOp t op with
      | none => none
      | some t' => execTokenOps t' rest

/-- Sum of all entries of the token's balances map. -/
def sumBalances (t : QRC20Token) : Nat :=
  sumVals t.balances


/-! ## Per-operation facts about supply and balance sums -/

theorem transfer_ok_spec (t : QRC20Token) (fromA toA amount : Nat)
    (t' : QRC20Token) (ev : QRC20Event)
    (h : t.transfer fromA toA amount = .ok (t', ev)) :
    sumVals t'.balances = sumVals t.balances ∧
    t'.total_supply = t.total_supply ∧ t'.max_supply = t.max_supply := by
  revert h
  simp only [QRC20Token.transfer, QRC20Token.balance_of]
  split_ifs with h1 h2
  · intro h; cases h
  · intro h; cases h
  · intro h
    simp only [Except.ok.injEq, Prod.mk.injEq] at h
    obtain ⟨ht, -⟩ := h
    subst ht
    dsimp only
    refine ⟨?_, rfl, rfl⟩
    have A1 := sumVals_hmInsert t.balances fromA (hmGetD t.balances fromA 0 - amount)
    have A2 := sumVals_hmInsert (hmInsert t.balances fromA (hmGetD t.balances fromA 0 - amount))
      toA (hmGetD (hmInsert t.balances fromA (hmGetD t.balances fromA 0 - amount)) toA 0 + amount)
    have B1 := hmGetD_le_sumVals t.balances fromA
    omega

theorem approve_ok_spec (t : QRC20Token) (ownerA spender amount : Nat)
    (t' : QRC20Token) (ev : QRC20Event)
    (h : t.approve ownerA spender amount = .ok (t', ev)) :
    t'.balances = t.balances ∧
    t'.total_supply = t.total_supply ∧ t'.max_supply = t.max_supply := by
  revert h
  simp only [QRC20Token.approve]
  split_ifs with h1
  · intro h; cases h
  · intro h
    simp only [Except.ok.injEq, Prod.mk.injEq] at h
    obtain ⟨ht, -⟩ := h
    subst ht
    exact ⟨rfl, rfl, rfl⟩

theorem transfer_from_ok_spec (t : QRC20Token) (spender fromA toA amount : Nat)
    (t' : QRC20Token) (ev : QRC20Event)
    (h : t.transfer_from spender fromA toA amount = some (.ok (t', ev))) :
    sumVals t'.balances = sumVals t.balances ∧
    t'.total_supply = t.total_supply ∧ t'.max_supply = t.max_supply := by
  revert h
  simp only [QRC20Token.transfer_from, QRC20Token.balance_of, QRC20Token.allowance]
  split_ifs with h1 h2 h3
  · intro h; cases h
  · intro h; cases h
  · intro h; cases h
  · cases hg : hmGet t.allowances fromA with
    | none => intro h; cases h
    | some inner =>
        intro h
        simp only [Option.some.injEq, Except.ok.injEq, Prod.mk.injEq] at h
        obtain ⟨ht, -⟩ := h
        subst ht
        dsimp only
        refine ⟨?_, rfl, rfl⟩
        have A1 := sumVals_hmInsert t.balances fromA (hmGetD t.balances fromA 0 - amount)
        have A2 := sumVals_hmInsert (hmInsert t.balances fromA (hmGetD t.balances fromA 0 - amount))
          toA (hmGetD (hmInsert t.balances fromA (hmGetD t.balances fromA 0 - amount)) toA 0 + amount)
        have B1 := hmGetD_le_sumVals t.balances fromA
        omega

theorem mint_ok_spec (t : QRC20Token) (caller toA amount : Nat)
    (t' : QRC20Token) (ev : QRC20Event)
    (h : t.mint caller toA amount = .ok (t', ev)) :
    sumVals t'.balances = sumVals t.balances + amount ∧
    t'.total_supply = t.total_supply + amount ∧ t'.max_supply = t.max_supply ∧
    (t.max_supply ≠ 0 → t.total_supply + amount ≤ t.max_supply) := by
  revert h
  simp only [QRC20Token.mint, QRC20Token.balance_of]
  split_ifs with h1 h2 h3 h4
  · intro h; cases h
  · intro h; cases h
  · intro h; cases h
  · intro h; cases h
  · intro h
    simp only [Except.ok.injEq, Prod.mk.injEq] at h
    obtain ⟨ht, -⟩ := h
    subst ht
    dsimp only
    have A1 := sumVals_hmInsert t.balances toA (hmGetD t.balances toA 0 + amount)
    have B1 := hmGetD_le_sumVals t.balances toA
    refine ⟨by omega, rfl, rfl, ?_⟩
    intro hms
    rcases not_and_or.mp h4 with hc | hc
    · exact absurd hms hc
    · omega

theorem burn_ok_spec (t : QRC20Token) (fromA amount : Nat)
    (t' : QRC20Token) (ev : QRC20Event)
    (h : t.burn fromA amount = .ok (t', ev)) :
    sumVals t'.balances + amount = sumVals t.balances ∧
    t'.total_supply = t.total_supply - amount ∧ t'.max_supply = t.max_supply ∧
    amount ≤ sumVals t.balances := by
  revert h
  simp only [QRC20Token.burn, QRC20Token.balance_of]
  split_ifs with h1 h2 h3
  · intro h; cases h
  · intro h; cases h
  · intro h; cases h
  · intro h
    simp only [Except.ok.injEq, Prod.mk.injEq] at h
    obtain ⟨ht, -⟩ := h
    subst ht
    dsimp only
    have A1 := sumVals_hmInsert t.balances fromA (hmGetD t.balances fromA 0 - amount)
    have B1 := hmGetD_le_sumVals t.balances fromA
    refine ⟨by omega, rfl, rfl, by omega⟩

/-- One step preserves both ledger invariants: the balances sum equals the
total supply, and (when a nonzero cap was already respected) the supply cap. -/
theorem applyTokenOp_preserves (t t' : QRC20Token) (op : TokenOp)
    (h : applyTokenOp t op = some t') :
    (sumBalances t = t.total_supply → sumBalances t' = t'.total_supply) ∧
    t'.max_supply = t.max_supply ∧
    (t.max_supply ≠ 0 → t.total_supply ≤ t.max_supply →
      t'.total_supply ≤ t'.max_supply) := by
  cases op with
  | transfer f toA a =>
      revert h
      simp only [applyTokenOp]
      cases hr : t.transfer f toA a with
      | ok p =>
          obtain ⟨t0, ev⟩ := p
          intro h
          simp only [Option.some.injEq] at h
          subst h
          obtain ⟨hs, hts, hms⟩ := transfer_ok_spec t f toA a t0 ev hr
          simp only [sumBalances]
          constructor
          · intro hinv; omega
          · exact ⟨hms, by omega⟩
      | error e =>
          intro h
          simp only [Option.some.injEq] at h
          subst h
          exact ⟨fun hinv => hinv, rfl, fun _ hle => hle⟩
  | approve o s a =>
      revert h
      simp only [applyTokenOp]
      cases hr : t.approve o s a with
      | ok p =>
          obtain ⟨t0, ev⟩ := p
          intro h
          simp only [Option.some.injEq] at h
          subst h
          obtain ⟨hb, hts, hms⟩ := approve_ok_spec t o s a t0 ev hr
          simp only [sumBalances, hb]
          exact ⟨fun hinv => by omega, hms, by omega⟩
      | error e =>
          intro h
          simp only [Option.some.injEq] at h
          subst h
          exact ⟨fun hinv => hinv, rfl, fun _ hle => hle⟩
  | transferFrom sp f toA a =>
      revert h
      simp only [applyTokenOp]
      cases hr : t.transfer_from sp f toA a with
      | none => intro h; cases h
      | some r =>
          cases r with
          | ok p =>
              obtain ⟨t0, ev⟩ := p
              intro h
              simp only [Option.some.injEq] at h
              subst h
              obtain ⟨hs, hts, hms⟩ := transfer_from_ok_spec t sp f toA a t0 ev hr
              simp only [sumBalances]
              exact ⟨fun hinv => by omega, hms, by omega⟩
          | error e =>
              intro h
              simp only [Option.some.injEq] at h
              subst h
              exact ⟨fun hinv => hinv, rfl, fun _ hle => hle⟩
  | mint c toA a =>
      revert h
      simp only [applyTokenOp]
      cases hr : t.mint c toA a with
      | ok p =>
          obtain ⟨t0, ev⟩ := p
          intro h
          simp only [Option.some.injEq] at h
          subst h
          obtain ⟨hs, hts, hms, hcap⟩ := mint_ok_spec t c toA a t0 ev hr
          simp only [sumBalances]
          refine ⟨fun hinv => by omega, hms, ?_⟩
          intro hne _
          have := hcap (by omega)
          omega
      | error e =>
          intro h
          simp only [Option.some.injEq] at h
          subst h
          exact ⟨fun hinv => hinv, rfl, fun _ hle => hle⟩
  | burn f a =>
      revert h
      simp only [applyTokenOp]
      cases hr : t.burn f a with
      | ok p =>
          obtain ⟨t0, ev⟩ := p
          intro h
          simp only [Option.some.injEq] at h
          subst h
          obtain ⟨hs, hts, hms, hle⟩ := burn_ok_spec t f a t0 ev hr
          simp only [sumBalances]
          exact ⟨fun hinv => by omega, hms, by omega⟩
      | error e =>
          intro h
          simp only [Option.some.injEq] at h
          subst h
          exact ⟨fun hinv => hinv, rfl, fun _ hle => hle⟩

theorem execTokenOps_preserves (ops : List TokenOp) (t t' : QRC20Token)
    (h : execTokenOps t ops = some t') :
    (sumBalances t = t.total_supply → sumBalances t' = t'.total_supply) ∧
    t'.max_supply = t.max_supply ∧
    (t.max_supply ≠ 0 → t.total_supply ≤ t.max_supply →
      t'.total_supply ≤ t'.max_supply) := by
  induction ops generalizing t with
  | nil =>
      simp only [execTokenOps, Option.some.injEq] at h
      subst h
      exact ⟨fun hinv => hinv, rfl, fun _ hle => hle⟩
  | cons op rest ih =>
      revert h
      simp only [execTokenOps]
      cases hstep : applyTokenOp t op with
      | none => intro h; cases h
      | some t1 =>
          intro h
          obtain ⟨hsum1, hms1, hcap1⟩ := applyTokenOp_preserves t t1 op hstep
          obtain ⟨hsum2, hms2, hcap2⟩ := ih t1 h
          refine ⟨fun hinv => hsum2 (hsum1 hinv), by omega, ?_⟩
          intro hne hle
          exact hcap2 (by omega) (hcap1 hne hle)

/-! ## Claim C1/C2/C9/C10 theorems -/

/-- `Result::is_ok`. -/
def isOk {e a : Type} : Except e a → Bool
  | .ok _ => true
  | .error _ => false

/-- C1: for every QRC-20 token created by `new` or `new_advanced` and every
sequence of transfer / approve / transfer_from / mint / burn operations, the
sum of all entries of the balances map equals the `total_supply` field at
every point between operations (each prefix of a sequence is a sequence, so
the quantification over all `ops` covers every observation point; `none`
marks a run aborted by the `transfer_from` panic, after which there is no
observation point). -/
theorem qrc20_sum_balances_eq_total_supply
    (nm sym : String) (dec ts ownerA ms : Nat) (mi bu : Bool) (ops : List TokenOp) :
    (∀ t', execTokenOps (QRC20Token.new nm sym dec ts ownerA) ops = some t' →
      sumBalances t' = t'.total_supply) ∧
    (∀ t', execTokenOps (QRC20Token.new_advanced nm sym dec ts ownerA ms mi bu) ops = some t' →
      sumBalances t' = t'.total_supply) := by
  constructor
  · intro t' h
    exact (execTokenOps_preserves ops _ t' h).1
      (by simp [sumBalances, sumVals, QRC20Token.new])
  · intro t' h
    exact (execTokenOps_preserves ops _ t' h).1
      (by simp [sumBalances, sumVals, QRC20Token.new_advanced])

/-- Concrete run for the C1 witness. -/
def c1Tok : QRC20Token :=
  (execTokenOps (QRC20Token.new "W" "W" 9 100 1)
    [TokenOp.transfer 1 2 30, TokenOp.mint 1 3 7, TokenOp.burn 2 5]).getD
    (QRC20Token.new "W" "W" 9 100 1)

/-- Witness for C1: the invariant evaluated on a concrete run. -/
theorem qrc20_sum_balances_eq_total_supply_witness :
    sumBalances c1Tok = c1Tok.total_supply :=
  (qrc20_sum_balances_eq_total_supply "W" "W" 9 100 1 0 true true
    [TokenOp.transfer 1 2 30, TokenOp.mint 1 3 7, TokenOp.burn 2 5]).1 c1Tok (by rfl)

/-- Token deployed with an initial supply above its nonzero cap. -/
def c2Tok : QRC20Token := QRC20Token.new_advanced "C" "C" 0 100 1 50 true true

/-- C2 counterexample: `new_advanced` (and hence `deploy_token_advanced`,
which builds the token with it) never checks the initial `total_supply`
against `max_supply`, so the claimed invariant fails immediately after
creation: here `max_supply = 50 ≠ 0` and `total_supply = 100 > 50`. -/
theorem qrc20_max_supply_violated_at_creation :
    c2Tok.max_supply ≠ 0 ∧ c2Tok.max_supply < c2Tok.total_supply := by
  constructor
  · decide
  · decide

/-- C2 amended: creation does not enforce the cap, but once a token with
nonzero `max_supply` satisfies `total_supply ≤ max_supply`, every operation
preserves it, and `mint` fails whenever it would push `total_supply` above
the cap. -/
theorem qrc20_max_supply_preserved (t : QRC20Token) (ops : List TokenOp) (t' : QRC20Token)
    (hms : t.max_supply ≠ 0) (hle : t.total_supply ≤ t.max_supply)
    (h : execTokenOps t ops = some t') :
    (t'.max_supply = t.max_supply ∧ t'.total_supply ≤ t'.max_supply) ∧
    (∀ caller toA amt, t.max_supply < t.total_supply + amt →
      isOk (t.mint caller toA amt) = false) := by
  obtain ⟨-, hm, hcap⟩ := execTokenOps_preserves ops t t' h
  refine ⟨⟨hm, hcap hms hle⟩, ?_⟩
  intro caller toA amt hover
  simp only [QRC20Token.mint]
  split_ifs with h1 h2 h3 h4
  · rfl
  · rfl
  · rfl
  · rfl
  · exact absurd ⟨hms, by omega⟩ h4

/-- Concrete run for the C2 witness: cap 50, supply 40, one mint of 5. -/
def c2TokW : QRC20Token := QRC20Token.new_advanced "V" "V" 0 40 1 50 true true

/-- Result of the C2 witness run. -/
def c2TokW' : QRC20Token :=
  (execTokenOps c2TokW [TokenOp.mint 1 2 5]).getD c2TokW

/-- Witness for the amended C2. -/
theorem qrc20_max_supply_preserved_witness :
    c2TokW'.max_supply = c2TokW.max_supply ∧ c2TokW'.total_supply ≤ c2TokW'.max_supply :=
  (qrc20_max_supply_preserved c2TokW [TokenOp.mint 1 2 5] c2TokW'
    (by decide) (by decide) (by rfl)).1

/-- Token with no allowances entries at all. -/
def c9Tok : QRC20Token := QRC20Token.new "N" "N" 0 10 1

/-- C9 counterexample: `transfer_from` with `amount = 0` and a `from`
address that has no entry in the allowances map passes both the allowance
check (`0 < 0` is false) and the balance check, then panics on
`self.allowances.get_mut(&from).unwrap()` — so it is not total. -/
theorem qrc20_transfer_from_panics :
    c9Tok.transfer_from 2 3 4 0 = none := by rfl

/-- C9 amended: `transfer_from` never panics provided the amount is positive
or the `from` address has an allowances entry; the only panic is the
`amount = 0` / no-entry corner. -/
theorem qrc20_transfer_from_total (t : QRC20Token) (spender fromA toA amt : Nat)
    (h : 0 < amt ∨ (hmGet t.allowances fromA).isSome = true) :
    (t.transfer_from spender fromA toA amt).isSome = true := by
  simp only [QRC20Token.transfer_from, QRC20Token.allowance, QRC20Token.balance_of]
  split_ifs with h1 h2 h3
  · rfl
  · rfl
  · rfl
  · cases hg : hmGet t.allowances fromA with
    | some inner => rfl
    | none =>
        exfalso
        rcases h with hpos | hsome
        · simp only [hmGetD, hg, Option.getD_none] at h2
          simp only [hmGetD, hmGet, Option.getD_none] at h2
          omega
        · rw [hg] at hsome
          cases hsome

/-- Witness for the amended C9. -/
theorem qrc20_transfer_from_total_witness :
    (c9Tok.transfer_from 2 1 4 3).isSome = true :=
  qrc20_transfer_from_total c9Tok 2 1 4 3 (Or.inl (by decide))

/-- C10: on an unpaused token, a funded self-transfer succeeds and changes
no balance and no supply (the credit reads the balance written by the
debit). -/
theorem qrc20_self_transfer_noop (t : QRC20Token) (a m : Nat)
    (hp : t.paused = false) (hm : m ≤ t.balance_of a) :
    ∃ t' ev, t.transfer a a m = .ok (t', ev) ∧
      (∀ x, t'.balance_of x = t.balance_of x) ∧
      t'.total_supply = t.total_supply := by
  have hnl : ¬ (t.balance_of a < m) := by omega
  simp only [QRC20Token.transfer, hp, Bool.false_eq_true, if_false, if_neg hnl]
  refine ⟨_, _, rfl, ?_, rfl⟩
  intro x
  simp only [QRC20Token.balance_of] at *
  by_cases hx : a = x
  · subst hx
    have e1 : hmGetD (hmInsert t.balances a (hmGetD t.balances a 0 - m)) a 0
        = hmGetD t.balances a 0 - m := by
      simp [hmGetD, hmGet_hmInsert_self]
    rw [e1]
    have e2 : hmGetD (hmInsert (hmInsert t.balances a (hmGetD t.balances a 0 - m)) a
        (hmGetD t.balances a 0 - m + m)) a 0 = hmGetD t.balances a 0 - m + m := by
      simp [hmGetD, hmGet_hmInsert_self]
    rw [e2]
    omega
  · simp only [hmGetD]
    rw [hmGet_hmInsert_ne _ a x _ hx, hmGet_hmInsert_ne _ a x _ hx]

/-- Witness for C10. -/
theorem qrc20_self_transfer_noop_witness :
    ∃ t' ev, (QRC20Token.new "S" "S" 0 10 1).transfer 1 1 4 = .ok (t', ev) ∧
      (∀ x, t'.balance_of x = (QRC20Token.new "S" "S" 0 10 1).balance_of x) ∧
      t'.total_supply = (QRC20Token.new "S" "S" 0 10 1).total_supply :=
  qrc20_self_transfer_noop (QRC20Token.new "S" "S" 0 10 1) 1 4 (by rfl) (by decide)

/-! ## Fee oracle (`QoraNet - src/fee_oracle.rs`, constants from lib.rs)

`f64` arithmetic is modelled on `ℚ`; the `as u64` cast is
`Int.toNat ∘ Int.floor`, which agrees with Rust's saturating cast on every
value produced here (non-negative fees, and both send negatives to 0). -/

/-- `MIN_FEE_USD = 0.0001`. -/
def MIN_FEE_USD : ℚ := 1 / 10000

/-- `MAX_FEE_USD = 0.01`. -/
def MAX_FEE_USD : ℚ := 1 / 100

/-- `DEFAULT_FEE_USD = 0.0001`. -/
def DEFAULT_FEE_USD : ℚ := 1 / 10000

/-- `ContractComplexity` (fee_oracle.rs). -/
inductive ContractComplexity where
  | Simple
  | Medium
  | Complex
  deriving DecidableEq, Repr

/-- `TransactionType` (fee_oracle.rs). -/
inductive TransactionType where
  | Transfer
  | ProvideLiquidity
  | RegisterApp
  | ReportMetrics
  | ClaimRewards
  | SmartContract (complexity : ContractComplexity)
  deriving DecidableEq, Repr

/-- `FeePriority` (fee_oracle.rs). -/
inductive FeePriority where
  | Low
  | Medium
  | High
  | Urgent
  deriving DecidableEq, Repr

/-- `usd_to_qor` (lib.rs): 9-decimal smallest units, 0 for a non-positive
price. -/
def usd_to_qor (usd_amount qor_price_usd : ℚ) : Nat :=
  if qor_price_usd ≤ 0 then 0
  else (Int.floor ((usd_amount / qor_price_usd) * 1000000000)).toNat

/-- `FeeOracle` (fee_oracle.rs). The `last_update` instant, refresh interval
and HTTP price-source list play no role in fee computation and are omitted
(real time and network I/O). -/
structure FeeOracle where
  qor_price_usd : ℚ
  deriving DecidableEq, Repr

namespace FeeOracle

/-- `FeeOracle::get_base_fee_usd`. -/
def get_base_fee_usd (_o : FeeOracle) : TransactionType → ℚ
  | .Transfer => DEFAULT_FEE_USD
  | .ProvideLiquidity => DEFAULT_FEE_USD * 2
  | .RegisterApp => DEFAULT_FEE_USD * 5
  | .ReportMetrics => DEFAULT_FEE_USD * (1 / 2)
  | .ClaimRewards => DEFAULT_FEE_USD * (3 / 2)
  | .SmartContract .Simple => DEFAULT_FEE_USD * 3
  | .SmartContract .Medium => DEFAULT_FEE_USD * 10
  | .SmartContract .Complex => DEFAULT_FEE_USD * 50

/-- `FeeOracle::get_priority_multiplier`. -/
def get_priority_multiplier (_o : FeeOracle) : FeePriority → ℚ
  | .Low => 1
  | .Medium => 3 / 2
  | .High => 2
  | .Urgent => 5

/-- `f64::clamp(lo, hi)`. -/
def clampQ (x lo hi : ℚ) : ℚ :=
  if x < lo then lo else if x > hi then hi else x

/-- `FeeOracle::calculate_fee`. -/
def calculate_fee (o : FeeOracle) (tx_type : TransactionType)
    (priority : FeePriority) : Nat :=
  let base_fee_usd := o.get_base_fee_usd tx_type
  let priority_multiplier := o.get_priority_multiplier priority
  let final_fee_usd := clampQ (base_fee_usd * priority_multiplier) MIN_FEE_USD MAX_FEE_USD
  usd_to_qor final_fee_usd o.qor_price_usd

end FeeOracle

theorem clampQ_mono {x y lo hi : ℚ} (hxy : x ≤ y) (hlohi : lo ≤ hi) :
    FeeOracle.clampQ x lo hi ≤ FeeOracle.clampQ y lo hi := by
  unfold FeeOracle.clampQ
  split_ifs <;> linarith

theorem get_base_fee_usd_nonneg (o : FeeOracle) (ty : TransactionType) :
    0 ≤ o.get_base_fee_usd ty := by
  cases ty with
  | SmartContract c =>
      cases c <;> norm_num [FeeOracle.get_base_fee_usd, DEFAULT_FEE_USD]
  | _ => norm_num [FeeOracle.get_base_fee_usd, DEFAULT_FEE_USD]

/-- C8: for every transaction class and every oracle state (any current
price), the Urgent fee is at least the Low fee — the 5x multiplier dominates
the 1x one through the clamp, the division by a positive price, the scaling
to smallest units and the floor/cast. -/
theorem fee_urgent_ge_low (o : FeeOracle) (ty : TransactionType) :
    o.calculate_fee ty FeePriority.Low ≤ o.calculate_fee ty FeePriority.Urgent := by
  unfold FeeOracle.calculate_fee usd_to_qor
  by_cases hp : o.qor_price_usd ≤ 0
  · simp [hp]
  · simp only [if_neg hp]
    push_neg at hp
    apply Int.toNat_le_toNat
    apply Int.floor_le_floor
    apply mul_le_mul_of_nonneg_right _ (by norm_num : (0:ℚ) ≤ 1000000000)
    apply div_le_div_of_nonneg_right ?_ hp.le
    apply clampQ_mono ?_ (by norm_num [MIN_FEE_USD, MAX_FEE_USD])
    have hb := get_base_fee_usd_nonneg o ty
    have hm : o.get_priority_multiplier FeePriority.Low
        ≤ o.get_priority_multiplier FeePriority.Urgent := by
      norm_num [FeeOracle.get_priority_multiplier]
    nlinarith

/-! ## Further association-map lemmas (for the transaction pool) -/

/-- The keys of a map are pairwise distinct. -/
def keysNodup {α β : Type} (m : List (α × β)) : Prop :=
  (m.map Prod.fst).Nodup

theorem hmGet_hmRemove_ne {α β : Type} [DecidableEq α]
    (m : List (α × β)) (k k' : α) (h : k ≠ k') :
    hmGet (hmRemove m k) k' = hmGet m k' := by
  induction m with
  | nil => simp [hmGet, hmRemove]
  | cons hd tl ih =>
      obtain ⟨k0, v0⟩ := hd
      by_cases h0 : k0 = k
      · subst h0
        simp [hmGet, hmRemove, h]
      · simp only [hmRemove, if_neg h0]
        by_cases h1 : k0 = k' <;> simp [hmGet, h1, ih]

theorem hmGet_eq_none_iff {α β : Type} [DecidableEq α]
    (m : List (α × β)) (k : α) :
    hmGet m k = none ↔ k ∉ m.map Prod.fst := by
  induction m with
  | nil => simp [hmGet]
  | cons hd tl ih =>
      obtain ⟨k0, v0⟩ := hd
      by_cases h0 : k0 = k
      · subst h0
        simp only [hmGet, if_pos rfl, List.map_cons, List.mem_cons]
        simp
      · simp only [hmGet, if_neg h0, List.map_cons, List.mem_cons, ih]
        constructor
        · intro hk hor
          rcases hor with h | h
          · exact h0 h.symm
          · exact hk h
        · intro hk h
          exact hk (Or.inr h)

theorem hmInsert_cons_self {α β : Type} [DecidableEq α]
    (tl : List (α × β)) (k : α) (v0 v : β) :
    hmInsert ((k, v0) :: tl) k v = (k, v) :: tl := by
  simp [hmInsert]

theorem hmRemove_cons_self {α β : Type} [DecidableEq α]
    (tl : List (α × β)) (k : α) (v0 : β) :
    hmRemove ((k, v0) :: tl) k = tl := by
  simp [hmRemove]

theorem keys_hmInsert_sub {α β : Type} [DecidableEq α]
    (m : List (α × β)) (k : α) (v : β) (x : α)
    (hx : x ∈ (hmInsert m k v).map Prod.fst) :
    x ∈ m.map Prod.fst ∨ x = k := by
  induction m with
  | nil =>
      simp only [hmInsert, List.map_cons, List.map_nil, List.mem_cons,
        List.not_mem_nil, or_false] at hx
      exact Or.inr hx
  | cons hd tl ih =>
      obtain ⟨k0, v0⟩ := hd
      by_cases h0 : k0 = k
      · subst h0
        rw [hmInsert_cons_self] at hx
        simp only [List.map_cons, List.mem_cons] at hx ⊢
        exact Or.inl hx
      · simp only [hmInsert, if_neg h0, List.map_cons, List.mem_cons] at hx
        rcases hx with hx | hx
        · exact Or.inl (by simp only [List.map_cons, List.mem_cons]; exact Or.inl hx)
        · rcases ih hx with h | h
          · exact Or.inl (by simp only [List.map_cons, List.mem_cons]; exact Or.inr h)
          · exact Or.inr h

theorem keys_hmRemove_sub {α β : Type} [DecidableEq α]
    (m : List (α × β)) (k : α) (x : α)
    (hx : x ∈ (hmRemove m k).map Prod.fst) :
    x ∈ m.map Prod.fst := by
  induction m with
  | nil => simp [hmRemove] at hx
  | cons hd tl ih =>
      obtain ⟨k0, v0⟩ := hd
      by_cases h0 : k0 = k
      · subst h0
        rw [hmRemove_cons_self] at hx
        simp only [List.map_cons, List.mem_cons]
        exact Or.inr hx
      · simp only [hmRemove, if_neg h0, List.map_cons, List.mem_cons] at hx ⊢
        rcases hx with hx | hx
        · exact Or.inl hx
        · exact Or.inr (ih hx)

theorem hmGet_hmRemove_self {α β : Type} [DecidableEq α]
    (m : List (α × β)) (k : α) (hnd : keysNodup m) :
    hmGet (hmRemove m k) k = none := by
  induction m with
  | nil => simp [hmGet, hmRemove]
  | cons hd tl ih =>
      obtain ⟨k0, v0⟩ := hd
      simp only [keysNodup, List.map_cons, List.nodup_cons] at hnd
      by_cases h0 : k0 = k
      · subst h0
        rw [hmRemove_cons_self]
        exact (hmGet_eq_none_iff tl k0).mpr hnd.1
      · simp only [hmRemove, if_neg h0, hmGet, if_neg h0]
        exact ih hnd.2

theorem keysNodup_hmInsert {α β : Type} [DecidableEq α]
    (m : List (α × β)) (k : α) (v : β) (hnd : keysNodup m) :
    keysNodup (hmInsert m k v) := by
  induction m with
  | nil => simp [keysNodup, hmInsert]
  | cons hd tl ih =>
      obtain ⟨k0, v0⟩ := hd
      simp only [keysNodup, List.map_cons, List.nodup_cons] at hnd
      by_cases h0 : k0 = k
      · subst h0
        rw [hmInsert_cons_self]
        simp only [keysNodup, List.map_cons, List.nodup_cons]
        exact hnd
      · simp only [hmInsert, if_neg h0, keysNodup, List.map_cons, List.nodup_cons]
        refine ⟨?_, ih hnd.2⟩
        intro hmem
        rcases keys_hmInsert_sub tl k v k0 hmem with h | h
        · exact hnd.1 h
        · exact h0 h

theorem keysNodup_hmRemove {α β : Type} [DecidableEq α]
    (m : List (α × β)) (k : α) (hnd : keysNodup m) :
    keysNodup (hmRemove m k) := by
  induction m with
  | nil => simp [keysNodup, hmRemove]
  | cons hd tl ih =>
      obtain ⟨k0, v0⟩ := hd
      simp only [keysNodup, List.map_cons, List.nodup_cons] at hnd
      by_cases h0 : k0 = k
      · subst h0
        rw [hmRemove_cons_self]
        exact hnd.2
      · simp only [hmRemove, if_neg h0, keysNodup, List.map_cons, List.nodup_cons]
        exact ⟨fun hmem => hnd.1 (keys_hmRemove_sub tl k k0 hmem), ih hnd.2⟩

/-! ## Transaction pool (`QoraNet - src/transaction.rs`)

The pool is parametric in the record-hash function `txHash`
(`Transaction::hash()`, SHA-256 of the bincode-serialized record) and the
admission predicate `txValid` (`Transaction::validate()`); a pool
transaction is its signer together with an opaque payload standing for the
remaining record fields. -/

/-- A transaction as the pool sees it. -/
structure PoolTx where
  signer : Nat
  payload : Nat
  deriving DecidableEq, Repr

/-- `TransactionPool` (transaction.rs): pending map and per-signer index. -/
structure TransactionPool where
  pending : List (Nat × PoolTx)
  by_signer : List (Nat × List Nat)
  deriving DecidableEq, Repr

namespace TransactionPool

/-- `TransactionPool::new`. -/
def newPool : TransactionPool where
  pending := []
  by_signer := []

end TransactionPool

/-- `TransactionPool::add_transaction`: validation failure returns the error
without touching the pool (`none` here); on success the record is inserted
into `pending` under its record hash and the hash is pushed onto the
signer's index entry. -/
def addTransaction (txHash : PoolTx → Nat) (txValid : PoolTx → Bool)
    (p : TransactionPool) (tx : PoolTx) : Option TransactionPool :=
  if txValid tx = false then none
  else
    let tx_hash := txHash tx
    let signer := tx.signer
    some { pending := hmInsert p.pending tx_hash tx,
           by_signer := hmInsert p.by_signer signer
             (hmGetD p.by_signer signer [] ++ [tx_hash]) }

/-- `TransactionPool::remove_transaction`: removes from `pending`, retains
all other hashes in the signer's index entry, and drops the signer key when
its list becomes empty. -/
def removeTransaction (p : TransactionPool) (tx_hash : Nat) :
    Option PoolTx × TransactionPool :=
  match hmGet p.pending tx_hash with
  | none => (none, p)
  | some transaction =>
      let pending1 := hmRemove p.pending tx_hash
      let by_signer1 :=
        match hmGet p.by_signer transaction.signer with
        | none => p.by_signer
        | some tx_hashes =>
            let kept := tx_hashes.filter (fun h => h ≠ tx_hash)
            if kept = [] then hmRemove p.by_signer transaction.signer
            else hmInsert p.by_signer transaction.signer kept
      (some transaction, { pending := pending1, by_signer := by_signer1 })

/-- One pool operation. -/
inductive PoolOp where
  | add (tx : PoolTx)
  | remove (tx_hash : Nat)
  deriving DecidableEq, Repr

/-- Apply one pool operation (a rejected `add` leaves the pool unchanged,
exactly as the early error return does). -/
def applyPoolOp (txHash : PoolTx → Nat) (txValid : PoolTx → Bool)
    (p : TransactionPool) : PoolOp → TransactionPool
  | .add tx =>
      match addTransaction txHash txValid p tx with
      | some p1 => p1
      | none => p
  | .remove h => (removeTransaction p h).2

/-- Run a sequence of pool operations. -/
def execPoolOps (txHash : PoolTx → Nat) (txValid : PoolTx → Bool)
    (p : TransactionPool) : List PoolOp → TransactionPool
  | [] => p
  | op :: rest => execPoolOps txHash txValid (applyPoolOp txHash txValid p op) rest

/-- The strengthened inductive pool invariant: both maps have distinct keys,
every indexed hash maps to a pending record of that signer, every pending
record is indexed under its signer, no index entry is empty, and every
pending record sits under its own record hash. -/
def poolInvStrong (txHash : PoolTx → Nat) (p : TransactionPool) : Prop :=
  keysNodup p.pending ∧ keysNodup p.by_signer ∧
  (∀ s hs h, hmGet p.by_signer s = some hs → h ∈ hs →
    ∃ tx, hmGet p.pending h = some tx ∧ tx.signer = s) ∧
  (∀ h tx, hmGet p.pending h = some tx →
    ∃ hs, hmGet p.by_signer tx.signer = some hs ∧ h ∈ hs) ∧
  (∀ s hs, hmGet p.by_signer s = some hs → hs ≠ []) ∧
  (∀ h tx, hmGet p.pending h = some tx → txHash tx = h)

theorem poolInvStrong_add (txHash : PoolTx → Nat) (txValid : PoolTx → Bool)
    (hsig : ∀ t1 t2 : PoolTx, txHash t1 = txHash t2 → t1.signer = t2.signer)
    (p : TransactionPool) (tx : PoolTx) (p1 : TransactionPool)
    (hinv : poolInvStrong txHash p)
    (h : addTransaction txHash txValid p tx = some p1) :
    poolInvStrong txHash p1 := by
  obtain ⟨nd1, nd2, ha, hb, hc, hf⟩ := hinv
  revert h
  unfold addTransaction
  split_ifs with hv
  · intro h; cases h
  · intro h
    simp only [Option.some.injEq] at h
    subst h
    refine ⟨keysNodup_hmInsert _ _ _ nd1, keysNodup_hmInsert _ _ _ nd2, ?_, ?_, ?_, ?_⟩
    · -- every indexed hash maps to a pending record of that signer
      intro s hs hh hget hmem
      by_cases hseq : s = tx.signer
      · subst hseq
        rw [hmGet_hmInsert_self] at hget
        injection hget with hget
        subst hget
        rcases List.mem_append.mp hmem with hin | hin
        · cases hgold : hmGet p.by_signer tx.signer with
          | none => simp [hmGetD, hgold] at hin
          | some hs1 =>
              obtain ⟨tx1, htx1, hsig1⟩ :=
                ha tx.signer hs1 hh hgold (by simpa [hmGetD, hgold] using hin)
              by_cases hhh : hh = txHash tx
              · subst hhh
                exact ⟨tx, hmGet_hmInsert_self _ _ _, rfl⟩
              · exact ⟨tx1, by
                  rw [hmGet_hmInsert_ne _ _ _ _ (fun he => hhh he.symm)]
                  exact htx1, hsig1⟩
        · simp only [List.mem_singleton] at hin
          subst hin
          exact ⟨tx, hmGet_hmInsert_self _ _ _, rfl⟩
      · rw [hmGet_hmInsert_ne _ _ _ _ (fun he => hseq he.symm)] at hget
        obtain ⟨tx1, htx1, hsig1⟩ := ha s hs hh hget hmem
        by_cases hhh : hh = txHash tx
        · exfalso
          apply hseq
          rw [← hsig1]
          apply hsig
          rw [hf hh tx1 htx1, hhh]
        · exact ⟨tx1, by
            rw [hmGet_hmInsert_ne _ _ _ _ (fun he => hhh he.symm)]
            exact htx1, hsig1⟩
    · -- every pending record is indexed under its signer
      intro hh tx2 hget
      by_cases hhh : hh = txHash tx
      · subst hhh
        rw [hmGet_hmInsert_self] at hget
        injection hget with hget
        subst hget
        refine ⟨hmGetD p.by_signer tx.signer [] ++ [txHash tx],
          hmGet_hmInsert_self _ _ _, ?_⟩
        simp
      · rw [hmGet_hmInsert_ne _ _ _ _ (fun he => hhh he.symm)] at hget
        obtain ⟨hs1, hgs1, hmem1⟩ := hb hh tx2 hget
        by_cases hseq : tx2.signer = tx.signer
        · rw [hseq] at hgs1 ⊢
          refine ⟨hmGetD p.by_signer tx.signer [] ++ [txHash tx],
            hmGet_hmInsert_self _ _ _, ?_⟩
          apply List.mem_append_left
          simp [hmGetD, hgs1]
          exact hmem1
        · refine ⟨hs1, ?_, hmem1⟩
          rw [hmGet_hmInsert_ne _ _ _ _ (fun he => hseq he.symm)]
          exact hgs1
    · -- no index entry is empty
      intro s hs hget
      by_cases hseq : s = tx.signer
      · subst hseq
        rw [hmGet_hmInsert_self] at hget
        injection hget with hget
        subst hget
        simp
      · rw [hmGet_hmInsert_ne _ _ _ _ (fun he => hseq he.symm)] at hget
        exact hc s hs hget
    · -- every pending record sits under its own hash
      intro hh tx2 hget
      by_cases hhh : hh = txHash tx
      · subst hhh
        rw [hmGet_hmInsert_self] at hget
        injection hget with hget
        subst hget
        rfl
      · rw [hmGet_hmInsert_ne _ _ _ _ (fun he => hhh he.symm)] at hget
        exact hf hh tx2 hget

theorem poolInvStrong_remove (txHash : PoolTx → Nat)
    (p : TransactionPool) (tx_hash : Nat)
    (hinv : poolInvStrong txHash p) :
    poolInvStrong txHash (removeTransaction p tx_hash).2 := by
  obtain ⟨nd1, nd2, ha, hb, hc, hf⟩ := hinv
  unfold removeTransaction
  cases hg : hmGet p.pending tx_hash with
  | none => exact ⟨nd1, nd2, ha, hb, hc, hf⟩
  | some tx =>
      obtain ⟨hs1, hgs1, hmem1⟩ := hb tx_hash tx hg
      simp only [hgs1]
      by_cases hk : hs1.filter (fun h => h ≠ tx_hash) = []
      · rw [if_pos hk]
        refine ⟨keysNodup_hmRemove _ _ nd1, keysNodup_hmRemove _ _ nd2, ?_, ?_, ?_, ?_⟩
        · intro s hs hh hget hmem
          by_cases hseq : s = tx.signer
          · subst hseq
            rw [hmGet_hmRemove_self _ _ nd2] at hget
            cases hget
          · rw [hmGet_hmRemove_ne _ _ _ (fun he => hseq he.symm)] at hget
            obtain ⟨tx1, htx1, hsig1⟩ := ha s hs hh hget hmem
            by_cases hhh : hh = tx_hash
            · exfalso
              subst hhh
              rw [hg] at htx1
              injection htx1 with he
              subst he
              exact hseq hsig1.symm
            · refine ⟨tx1, ?_, hsig1⟩
              rw [hmGet_hmRemove_ne _ _ _ (fun he => hhh he.symm)]
              exact htx1
        · intro hh tx2 hget
          by_cases hhh : hh = tx_hash
          · subst hhh
            rw [hmGet_hmRemove_self _ _ nd1] at hget
            cases hget
          · rw [hmGet_hmRemove_ne _ _ _ (fun he => hhh he.symm)] at hget
            obtain ⟨hs3, hgs3, hmem3⟩ := hb hh tx2 hget
            by_cases hseq : tx2.signer = tx.signer
            · exfalso
              rw [hseq, hgs1] at hgs3
              injection hgs3 with he
              subst he
              have hmemk : hh ∈ hs1.filter (fun h => h ≠ tx_hash) := by
                simp only [List.mem_filter]
                exact ⟨hmem3, by simpa using hhh⟩
              rw [hk] at hmemk
              cases hmemk
            · refine ⟨hs3, ?_, hmem3⟩
              rw [hmGet_hmRemove_ne _ _ _ (fun he => hseq he.symm)]
              exact hgs3
        · intro s hs hget
          by_cases hseq : s = tx.signer
          · subst hseq
            rw [hmGet_hmRemove_self _ _ nd2] at hget
            cases hget
          · rw [hmGet_hmRemove_ne _ _ _ (fun he => hseq he.symm)] at hget
            exact hc s hs hget
        · intro hh tx2 hget
          by_cases hhh : hh = tx_hash
          · subst hhh
            rw [hmGet_hmRemove_self _ _ nd1] at hget
            cases hget
          · rw [hmGet_hmRemove_ne _ _ _ (fun he => hhh he.symm)] at hget
            exact hf hh tx2 hget
      · rw [if_neg hk]
        refine ⟨keysNodup_hmRemove _ _ nd1, keysNodup_hmInsert _ _ _ nd2, ?_, ?_, ?_, ?_⟩
        · intro s hs hh hget hmem
          by_cases hseq : s = tx.signer
          · subst hseq
            rw [hmGet_hmInsert_self] at hget
            injection hget with hget
            subst hget
            obtain ⟨hin, hne⟩ : hh ∈ hs1 ∧ hh ≠ tx_hash := by
              have hmf := List.mem_filter.mp hmem
              exact ⟨hmf.1, by simpa using hmf.2⟩
            obtain ⟨tx1, htx1, hsig1⟩ := ha tx.signer hs1 hh hgs1 hin
            refine ⟨tx1, ?_, hsig1⟩
            rw [hmGet_hmRemove_ne _ _ _ (fun he => hne he.symm)]
            exact htx1
          · rw [hmGet_hmInsert_ne _ _ _ _ (fun he => hseq he.symm)] at hget
            obtain ⟨tx1, htx1, hsig1⟩ := ha s hs hh hget hmem
            by_cases hhh : hh = tx_hash
            · exfalso
              subst hhh
              rw [hg] at htx1
              injection htx1 with he
              subst he
              exact hseq hsig1.symm
            · refine ⟨tx1, ?_, hsig1⟩
              rw [hmGet_hmRemove_ne _ _ _ (fun he => hhh he.symm)]
              exact htx1
        · intro hh tx2 hget
          by_cases hhh : hh = tx_hash
          · subst hhh
            rw [hmGet_hmRemove_self _ _ nd1] at hget
            cases hget
          · rw [hmGet_hmRemove_ne _ _ _ (fun he => hhh he.symm)] at hget
            obtain ⟨hs3, hgs3, hmem3⟩ := hb hh tx2 hget
            by_cases hseq : tx2.signer = tx.signer
            · rw [hseq] at hgs3 ⊢
              rw [hgs1] at hgs3
              injection hgs3 with he
              subst he
              refine ⟨hs1.filter (fun h => h ≠ tx_hash), hmGet_hmInsert_self _ _ _, ?_⟩
              simp only [List.mem_filter]
              exact ⟨hmem3, by simpa using hhh⟩
            · refine ⟨hs3, ?_, hmem3⟩
              rw [hmGet_hmInsert_ne _ _ _ _ (fun he => hseq he.symm)]
              exact hgs3
        · intro s hs hget
          by_cases hseq : s = tx.signer
          · subst hseq
            rw [hmGet_hmInsert_self] at hget
            injection hget with hget
            subst hget
            exact hk
          · rw [hmGet_hmInsert_ne _ _ _ _ (fun he => hseq he.symm)] at hget
            exact hc s hs hget
        · intro hh tx2 hget
          by_cases hhh : hh = tx_hash
          · subst hhh
            rw [hmGet_hmRemove_self _ _ nd1] at hget
            cases hget
          · rw [hmGet_hmRemove_ne _ _ _ (fun he => hhh he.symm)] at hget
            exact hf hh tx2 hget

theorem poolInvStrong_exec (txHash : PoolTx → Nat) (txValid : PoolTx → Bool)
    (hsig : ∀ t1 t2 : PoolTx, txHash t1 = txHash t2 → t1.signer = t2.signer)
    (ops : List PoolOp) (p : TransactionPool) (hinv : poolInvStrong txHash p) :
    poolInvStrong txHash (execPoolOps txHash txValid p ops) := by
  induction ops generalizing p with
  | nil => exact hinv
  | cons op rest ih =>
      apply ih
      cases op with
      | add tx =>
          simp only [applyPoolOp]
          cases hadd : addTransaction txHash txValid p tx with
          | none => exact hinv
          | some p1 => exact poolInvStrong_add txHash txValid hsig p tx p1 hinv hadd
      | remove h =>
          exact poolInvStrong_remove txHash p h hinv

theorem poolInvStrong_newPool (txHash : PoolTx → Nat) :
    poolInvStrong txHash TransactionPool.newPool := by
  refine ⟨?_, ?_, ?_, ?_, ?_, ?_⟩ <;>
    simp [keysNodup, TransactionPool.newPool, hmGet]

/-- C7: starting from the empty pool, after every sequence of
`add_transaction` / `remove_transaction` calls, every hash in any signer's
index entry is a key of the pending map, every pending record's signer has
an index entry containing that record's hash, and no signer key maps to an
empty list (the removal that empties a list deletes the key). The
hypothesis `hsig` says the record hash determines the signer:
`Transaction::hash()` is SHA-256 of the bincode serialization of the full
record (signer included), which the code treats as collision-free; an
actual collision between records of different signers would break the
index. -/
theorem pool_index_consistency (txHash : PoolTx → Nat) (txValid : PoolTx → Bool)
    (hsig : ∀ t1 t2 : PoolTx, txHash t1 = txHash t2 → t1.signer = t2.signer)
    (ops : List PoolOp) :
    (∀ s hs h,
      hmGet (execPoolOps txHash txValid TransactionPool.newPool ops).by_signer s = some hs →
      h ∈ hs →
      (hmGet (execPoolOps txHash txValid TransactionPool.newPool ops).pending h).isSome = true) ∧
    (∀ h tx,
      hmGet (execPoolOps txHash txValid TransactionPool.newPool ops).pending h = some tx →
      ∃ hs,
        hmGet (execPoolOps txHash txValid TransactionPool.newPool ops).by_signer tx.signer
          = some hs ∧ h ∈ hs) ∧
    (∀ s hs,
      hmGet (execPoolOps txHash txValid TransactionPool.newPool ops).by_signer s = some hs →
      hs ≠ []) := by
  obtain ⟨-, -, ha, hb, hc, -⟩ :=
    poolInvStrong_exec txHash txValid hsig ops TransactionPool.newPool
      (poolInvStrong_newPool txHash)
  refine ⟨?_, hb, hc⟩
  intro s hs h hget hmem
  obtain ⟨tx1, htx1, -⟩ := ha s hs h hget hmem
  rw [htx1]
  rfl

/-- Record hash for the C7 witness: an injective pairing of the fields. -/
def c7Hash (tx : PoolTx) : Nat := Nat.pair tx.signer tx.payload

/-- Admission predicate for the C7 witness. -/
def c7Valid (_tx : PoolTx) : Bool := true

/-- Concrete operation sequence for the C7 witness: two adds and a removal
that empties the first signer's index. -/
def c7Ops : List PoolOp :=
  [PoolOp.add ⟨1, 5⟩, PoolOp.add ⟨2, 6⟩, PoolOp.remove (Nat.pair 1 5)]

/-- The pool reached by the C7 witness run. -/
def c7Pool : TransactionPool :=
  execPoolOps c7Hash c7Valid TransactionPool.newPool c7Ops

/-- Witness for C7: the surviving record is still correctly indexed. -/
theorem pool_index_consistency_witness :
    ∃ hs, hmGet c7Pool.by_signer (PoolTx.mk 2 6).signer = some hs ∧ Nat.pair 2 6 ∈ hs :=
  (pool_index_consistency c7Hash c7Valid
    (fun t1 t2 h => (Nat.pair_eq_pair.mp h).1) c7Ops).2.1
    (Nat.pair 2 6) ⟨2, 6⟩ (by rfl)

/-! ## Consensus block (`src/consensus/block.rs`, error type from lib.rs)

Hashes are byte lists; SHA-256 (`Hash::new`) is the abstract parameter
`hashNew`, the transaction record hash (`Transaction::hash()`) the
parameter `txHash`, and `Transaction::verify_signature()` the parameter
`verifySig` (ed25519 verification is not modelled bit-for-bit); a
transaction is its fee plus an opaque body. `Utc::now()` is the explicit
parameter `now`. -/

/-- A transaction as block validation sees it. -/
structure CTx where
  fee_qor : Nat
  body : Nat
  deriving DecidableEq, Repr

/-- `QoraNetError` (lib.rs). -/
inductive QoraNetError where
  | InvalidTransaction (msg : String)
  | InsufficientLiquidity (required available : Nat)
  | AppMonitorError (msg : String)
  | NetworkError (msg : String)
  | StorageError (msg : String)
  | ConsensusError (msg : String)
  deriving DecidableEq, Repr

/-- Does an error use the `ConsensusError` variant? -/
def QoraNetError.isConsensus : QoraNetError → Bool
  | .ConsensusError _ => true
  | _ => false

/-- `Hash::zero()`: the all-zero 32-byte digest. -/
def zeroHash : List Nat := List.replicate 32 0

/-- `BlockHeader` (block.rs). -/
structure BlockHeader where
  previous_hash : List Nat
  transactions_root : List Nat
  height : Nat
  timestamp : Nat
  validator : Nat
  total_liquidity : Nat
  active_apps : Nat
  total_fees : Nat
  version : Nat
  nonce : Nat
  deriving DecidableEq, Repr

/-- `Block` (block.rs). -/
structure Block where
  header : BlockHeader
  transactions : List CTx
  deriving DecidableEq, Repr

/-- `BlockHeader::validate`. -/
def BlockHeader.validate (now : Nat) (hd : BlockHeader) (expected_height : Nat)
    (expected_previous : List Nat) : Except QoraNetError Unit :=
  if hd.height ≠ expected_height then
    Except.error (.ConsensusError "Invalid block height")
  else if hd.previous_hash ≠ expected_previous then
    Except.error (.ConsensusError "Invalid previous block hash")
  else if hd.timestamp > now + 300 then
    Except.error (.ConsensusError "Block timestamp too far in the future")
  else Except.ok ()

/-- One level of the Merkle tree: `hashes.chunks(2)`, a full chunk hashed
pairwise, an odd trailing chunk hashed with itself. -/
def nextLevel (hashNew : List Nat → List Nat) : List (List Nat) → List (List Nat)
  | [] => []
  | [a] => [hashNew (a ++ a)]
  | a :: b :: rest => hashNew (a ++ b) :: nextLevel hashNew rest

theorem nextLevel_length (hashNew : List Nat → List Nat) :
    ∀ hs : List (List Nat), (nextLevel hashNew hs).length = (hs.length + 1) / 2
  | [] => by simp [nextLevel]
  | [_] => by simp [nextLevel]
  | _ :: _ :: rest => by
      simp only [nextLevel, List.length_cons, nextLevel_length hashNew rest]
      omega

/-- The `while hashes.len() > 1` loop of `calculate_transactions_root`. -/
def merkleLoop (hashNew : List Nat → List Nat) (hs : List (List Nat)) :
    List (List Nat) :=
  if hs.length > 1 then merkleLoop hashNew (nextLevel hashNew hs) else hs
termination_by hs.length
decreasing_by
  rw [nextLevel_length]
  omega

theorem merkleLoop_done (hashNew : List Nat → List Nat) (hs : List (List Nat))
    (h : ¬ hs.length > 1) : merkleLoop hashNew hs = hs := by
  rw [merkleLoop]
  exact if_neg h

theorem merkleLoop_step (hashNew : List Nat → List Nat) (hs : List (List Nat))
    (h : hs.length > 1) :
    merkleLoop hashNew hs = merkleLoop hashNew (nextLevel hashNew hs) := by
  rw [merkleLoop]
  exact if_pos h

/-- `Block::calculate_transactions_root`: zero hash for an empty list, else
the fixed point of the level-by-level loop (which ends with exactly one
hash; `headD` reads `hashes[0]`). -/
def calculate_transactions_root (hashNew : List Nat → List Nat)
    (txHash : CTx → List Nat) (transactions : List CTx) : List Nat :=
  if transactions.isEmpty then zeroHash
  else (merkleLoop hashNew (transactions.map txHash)).headD zeroHash

/-- `Transaction::verify_signature`, abstracted by `verifySig`; a failure is
wrapped in `InvalidTransaction` exactly as in transaction.rs. -/
def verify_signature (verifySig : CTx → Bool) (tx : CTx) :
    Except QoraNetError Unit :=
  if verifySig tx then Except.ok ()
  else Except.error (.InvalidTransaction "Invalid signature")

/-- The `for tx in &self.transactions { tx.verify_signature()?; }` loop. -/
def verifyAll (verifySig : CTx → Bool) : List CTx → Except QoraNetError Unit
  | [] => .ok ()
  | tx :: rest =>
      match verify_signature verifySig tx with
      | .ok _ => verifyAll verifySig rest
      | .error e => .error e

/-- `Block::validate`. -/
def Block.validate (hashNew : List Nat → List Nat) (txHash : CTx → List Nat)
    (verifySig : CTx → Bool) (now : Nat) (b : Block) (expected_height : Nat)
    (expected_previous : List Nat) : Except QoraNetError Unit :=
  match b.header.validate now expected_height expected_previous with
  | .error e => .error e
  | .ok _ =>
      if calculate_transactions_root hashNew txHash b.transactions
          ≠ b.header.transactions_root then
        .error (.ConsensusError "Invalid transactions root")
      else if (b.transactions.map (fun tx => tx.fee_qor)).sum
          ≠ b.header.total_fees then
        .error (.ConsensusError "Invalid total fees")
      else verifyAll verifySig b.transactions

theorem verifyAll_ok_iff (verifySig : CTx → Bool) (txs : List CTx) :
    verifyAll verifySig txs = .ok () ↔ ∀ tx ∈ txs, verifySig tx = true := by
  induction txs with
  | nil => simp [verifyAll]
  | cons tx rest ih =>
      simp only [verifyAll, verify_signature]
      cases hv : verifySig tx with
      | true => simp [hv, ih]
      | false => simp [hv]

theorem verifyAll_err (verifySig : CTx → Bool) (txs : List CTx)
    (h : ¬ ∀ tx ∈ txs, verifySig tx = true) :
    verifyAll verifySig txs = .error (.InvalidTransaction "Invalid signature") := by
  induction txs with
  | nil => exact absurd (by simp) h
  | cons tx rest ih =>
      simp only [verifyAll, verify_signature]
      cases hv : verifySig tx with
      | true =>
          simp only [if_pos rfl, if_true]
          apply ih
          intro hall
          apply h
          intro tx2 hmem
          rcases List.mem_cons.mp hmem with he | he
          · subst he; exact hv
          · exact hall tx2 he
      | false => simp [hv]

theorem headerValidate_ok_iff (now : Nat) (hd : BlockHeader) (eh : Nat)
    (ep : List Nat) :
    hd.validate now eh ep = .ok () ↔
      hd.height = eh ∧ hd.previous_hash = ep ∧ hd.timestamp ≤ now + 300 := by
  unfold BlockHeader.validate
  split_ifs with h1 h2 h3
  · simp [h1]
  · simp [h2]
  · constructor
    · intro hcontra; cases hcontra
    · rintro ⟨-, -, hC⟩
      exact absurd hC (by omega)
  · rw [not_ne_iff] at h1 h2
    simp [h1, h2]
    omega

theorem headerValidate_err (now : Nat) (hd : BlockHeader) (eh : Nat)
    (ep : List Nat)
    (h : ¬(hd.height = eh ∧ hd.previous_hash = ep ∧ hd.timestamp ≤ now + 300)) :
    ∃ msg, hd.validate now eh ep = .error (.ConsensusError msg) := by
  unfold BlockHeader.validate
  split_ifs with h1 h2 h3
  · exact ⟨_, rfl⟩
  · exact ⟨_, rfl⟩
  · exact ⟨_, rfl⟩
  · exfalso
    rw [not_ne_iff] at h1 h2
    exact h ⟨h1, h2, by omega⟩

/-- C5 (amended): `Block::validate` succeeds exactly when the height,
previous-hash, timestamp (≤ now + 300, no lower bound), recomputed Merkle
root, recomputed fee total and every transaction signature check pass; it
is a pure function of its inputs, so no state is modified either way. A
failing header / root / fee check yields a `ConsensusError`, but a failing
signature yields an `InvalidTransaction` error, not a consensus-error. -/
theorem block_validate_characterization (hashNew : List Nat → List Nat)
    (txHash : CTx → List Nat) (verifySig : CTx → Bool) (now : Nat) (b : Block)
    (eh : Nat) (ep : List Nat) :
    (Block.validate hashNew txHash verifySig now b eh ep = Except.ok () ↔
      (b.header.height = eh ∧ b.header.previous_hash = ep ∧
       b.header.timestamp ≤ now + 300 ∧
       calculate_transactions_root hashNew txHash b.transactions
         = b.header.transactions_root ∧
       (b.transactions.map (fun tx => tx.fee_qor)).sum = b.header.total_fees ∧
       ∀ tx ∈ b.transactions, verifySig tx = true)) ∧
    ((b.header.height = eh ∧ b.header.previous_hash = ep ∧
      b.header.timestamp ≤ now + 300 ∧
      calculate_transactions_root hashNew txHash b.transactions
        = b.header.transactions_root ∧
      (b.transactions.map (fun tx => tx.fee_qor)).sum = b.header.total_fees) →
     ¬(∀ tx ∈ b.transactions, verifySig tx = true) →
     Block.validate hashNew txHash verifySig now b eh ep
       = Except.error (.InvalidTransaction "Invalid signature")) ∧
    (¬(b.header.height = eh ∧ b.header.previous_hash = ep ∧
       b.header.timestamp ≤ now + 300 ∧
       calculate_transactions_root hashNew txHash b.transactions
         = b.header.transactions_root ∧
       (b.transactions.map (fun tx => tx.fee_qor)).sum = b.header.total_fees) →
     ∃ msg, Block.validate hashNew txHash verifySig now b eh ep
       = Except.error (.ConsensusError msg)) := by
  by_cases hH : b.header.height = eh ∧ b.header.previous_hash = ep ∧
      b.header.timestamp ≤ now + 300
  · have hok : b.header.validate now eh ep = .ok () :=
      (headerValidate_ok_iff now b.header eh ep).mpr hH
    by_cases hR : calculate_transactions_root hashNew txHash b.transactions
        = b.header.transactions_root
    · by_cases hF : (b.transactions.map (fun tx => tx.fee_qor)).sum
          = b.header.total_fees
      · have hred : Block.validate hashNew txHash verifySig now b eh ep
            = verifyAll verifySig b.transactions := by
          simp [Block.validate, hok, hR, hF]
        refine ⟨?_, ?_, ?_⟩
        · rw [hred, verifyAll_ok_iff]
          simp [hH.1, hH.2.1, hH.2.2, hR, hF]
        · intro _ hsig
          rw [hred]
          exact verifyAll_err verifySig b.transactions hsig
        · intro hcon
          exact absurd ⟨hH.1, hH.2.1, hH.2.2, hR, hF⟩ hcon
      · have hred : Block.validate hashNew txHash verifySig now b eh ep
            = Except.error (.ConsensusError "Invalid total fees") := by
          simp [Block.validate, hok, hR, hF]
        refine ⟨?_, ?_, ?_⟩
        · rw [hred]
          simp [hF]
        · intro hcon
          exact absurd hcon.2.2.2.2 hF
        · intro _
          exact ⟨_, hred⟩
    · have hred : Block.validate hashNew txHash verifySig now b eh ep
          = Except.error (.ConsensusError "Invalid transactions root") := by
        simp [Block.validate, hok, hR]
      refine ⟨?_, ?_, ?_⟩
      · rw [hred]
        simp [hR]
      · intro hcon
        exact absurd hcon.2.2.2.1 hR
      · intro _
        exact ⟨_, hred⟩
  · obtain ⟨msg, herr⟩ := headerValidate_err now b.header eh ep hH
    have hred : Block.validate hashNew txHash verifySig now b eh ep
        = Except.error (.ConsensusError msg) := by
      simp [Block.validate, herr]
    refine ⟨?_, ?_, ?_⟩
    · rw [hred]
      constructor
      · intro hcontra; cases hcontra
      · rintro ⟨hA, hB, hC, -⟩
        exact absurd ⟨hA, hB, hC⟩ hH
    · rintro ⟨hA, hB, hC, -⟩ _
      exact absurd ⟨hA, hB, hC⟩ hH
    · intro _
      exact ⟨msg, hred⟩

/-- Concrete hash function for the C5/C6 instances. -/
def c5HashNew (l : List Nat) : List Nat := l

/-- Concrete record hash for the C5 instance. -/
def c5TxHash (_tx : CTx) : List Nat := [7]

/-- A signature verifier that rejects everything. -/
def c5SigBad (_tx : CTx) : Bool := false

/-- A signature verifier that accepts everything. -/
def c5SigOk (_tx : CTx) : Bool := true

/-- A block whose header, Merkle-root and fee checks all pass against
expected height 4, previous hash `[9]` and `now = 100`. -/
def c5Block : Block where
  header := { previous_hash := [9], transactions_root := [7], height := 4,
              timestamp := 0, validator := 0, total_liquidity := 0,
              active_apps := 0, total_fees := 3, version := 1, nonce := 0 }
  transactions := [⟨3, 0⟩]

/-- C5 counterexample: on a block failing only the signature check, the
whole-block validation fails with `InvalidTransaction`, which is not the
claimed consensus-error variant. -/
theorem block_validate_signature_not_consensus_error :
    Block.validate c5HashNew c5TxHash c5SigBad 100 c5Block 4 [9]
      = Except.error (.InvalidTransaction "Invalid signature") ∧
    (QoraNetError.InvalidTransaction "Invalid signature").isConsensus = false := by
  constructor
  · have hroot : calculate_transactions_root c5HashNew c5TxHash [⟨3, 0⟩] = [7] := by
      simp [calculate_transactions_root, c5TxHash, merkleLoop_done]
    simp [Block.validate, BlockHeader.validate, c5Block, hroot, c5SigBad,
      verifyAll, verify_signature]
  · rfl

/-- Witness for the amended C5: a fully valid block validates. -/
theorem block_validate_characterization_witness :
    Block.validate c5HashNew c5TxHash c5SigOk 100 c5Block 4 [9] = Except.ok () := by
  apply (block_validate_characterization c5HashNew c5TxHash c5SigOk 100 c5Block 4 [9]).1.mpr
  refine ⟨rfl, rfl, by decide, ?_, rfl, ?_⟩
  · simp [calculate_transactions_root, c5Block, c5TxHash, merkleLoop_done]
  · intro tx _
    rfl

/-- C6 (amended): the Merkle root computation is deterministic, the empty
list yields the zero hash, and the tree is built level by level with an odd
node self-paired at levels of two or more nodes — but for a single-element
list the `while hashes.len() > 1` loop never runs, so the root is that
element's record hash itself, not the hash of it paired with itself. -/
theorem merkle_root_properties (hashNew : List Nat → List Nat)
    (txHash : CTx → List Nat) (t1 t2 t3 : CTx) (txs : List CTx) :
    calculate_transactions_root hashNew txHash txs
      = calculate_transactions_root hashNew txHash txs ∧
    calculate_transactions_root hashNew txHash [] = zeroHash ∧
    calculate_transactions_root hashNew txHash [t1] = txHash t1 ∧
    calculate_transactions_root hashNew txHash [t1, t2, t3]
      = hashNew (hashNew (txHash t1 ++ txHash t2)
          ++ hashNew (txHash t3 ++ txHash t3)) := by
  refine ⟨rfl, rfl, ?_, ?_⟩
  · simp [calculate_transactions_root, merkleLoop_done]
  · simp only [calculate_transactions_root, List.isEmpty_cons, List.map_cons,
      List.map_nil, Bool.false_eq_true, if_false]
    rw [merkleLoop_step _ _ (by simp)]
    rw [merkleLoop_step _ _ (by simp [nextLevel])]
    simp [nextLevel, merkleLoop_done]

/-- Record hash for the C6 counterexample. -/
def c6RecHash (_tx : CTx) : List Nat := [2]

/-- Hash function for the C6 counterexample (prepends a byte, so hashing a
value with itself never returns the value). -/
def c6HashNew (l : List Nat) : List Nat := 1 :: l

/-- C6 counterexample: for a single-element list the root equals the
element's record hash itself — it is NOT that hash hashed with itself, as
the loop requires more than one node to run. -/
theorem merkle_singleton_not_self_paired :
    calculate_transactions_root c6HashNew c6RecHash [CTx.mk 0 0]
      ≠ c6HashNew (c6RecHash (CTx.mk 0 0) ++ c6RecHash (CTx.mk 0 0)) := by
  have hroot : calculate_transactions_root c6HashNew c6RecHash [CTx.mk 0 0] = [2] := by
    simp [calculate_transactions_root, merkleLoop_done, c6RecHash]
  rw [hroot]
  simp [c6HashNew, c6RecHash]

/-! ## Registry (`src/qrc20/registry.rs`) -/

/-- `QRC20Registry` (registry.rs). -/
structure QRC20Registry where
  tokens : List (Nat × QRC20Token)
  symbol_to_address : List (String × Nat)
  name_to_address : List (String × Nat)
  next_contract_id : Nat
  registry_owner : Nat
  deriving DecidableEq, Repr

namespace QRC20Registry

/-- `QRC20Registry::new`. -/
def newRegistry : QRC20Registry where
  tokens := []
  symbol_to_address := []
  name_to_address := []
  next_contract_id := 1000
  registry_owner := 0

/-- `QRC20Registry::deploy_token_advanced` (the returned address is
`H160::from_low_u64_be(next_contract_id)`, modelled as the id itself). -/
def deploy_token_advanced (r : QRC20Registry) (deployer : Nat)
    (name symbol : String) (decimals total_supply : Nat)
    (max_supply : Option Nat) (mintable burnable : Option Bool) :
    Except QRC20Error (QRC20Registry × Nat) :=
  if (hmGet r.symbol_to_address symbol).isSome then
    .error (.SymbolExists symbol)
  else if (hmGet r.name_to_address name).isSome then
    .error (.EVMExecutionFailed "Token name already exists")
  else
    let contract_address := r.next_contract_id
    let token :=
      match max_supply with
      | some ms => QRC20Token.new_advanced name symbol decimals total_supply
          deployer ms (mintable.getD true) (burnable.getD true)
      | none => QRC20Token.new name symbol decimals total_supply deployer
    let token := { token with contract_address := contract_address }
    .ok ({ r with
      next_contract_id := r.next_contract_id + 1,
      tokens := hmInsert r.tokens contract_address token,
      symbol_to_address := hmInsert r.symbol_to_address symbol contract_address,
      name_to_address := hmInsert r.name_to_address name contract_address },
      contract_address)

/-- `QRC20Registry::deploy_token`. -/
def deploy_token (r : QRC20Registry) (deployer : Nat) (name symbol : String)
    (decimals total_supply : Nat) : Except QRC20Error (QRC20Registry × Nat) :=
  r.deploy_token_advanced deployer name symbol decimals total_supply
    none (some true) (some true)

end QRC20Registry

/-! ## Bridge (`src/qrc20/bridge.rs`) -/

/-- `ERC20Bridge` (bridge.rs). The `bridge_transactions` log is not
modelled: its records carry `H256::random()` ids and wall-clock timestamps
(nondeterministic), and no claim concerns it. -/
structure ERC20Bridge where
  eth_to_qora_mapping : List (Nat × Nat)
  qora_to_eth_mapping : List (Nat × Nat)
  locked_eth_tokens : List (Nat × Nat)
  minted_qora_tokens : List (Nat × Nat)
  bridge_operators : List Nat
  min_confirmations : Nat
  bridge_fee_bp : Nat
  bridge_treasury : Nat
  deriving DecidableEq, Repr

namespace ERC20Bridge

/-- `ERC20Bridge::new`. -/
def newBridge : ERC20Bridge where
  eth_to_qora_mapping := []
  qora_to_eth_mapping := []
  locked_eth_tokens := []
  minted_qora_tokens := []
  bridge_operators := []
  min_confirmations := 12
  bridge_fee_bp := 50
  bridge_treasury := 0

/-- `ERC20Bridge::calculate_bridge_fee`. -/
def calculate_bridge_fee (b : ERC20Bridge) (amount : Nat) : Nat :=
  amount * b.bridge_fee_bp / 10000

end ERC20Bridge

/-- `ERC20Bridge::bridge_from_ethereum`. Returns the result together with
the bridge and registry exactly as the call leaves them (mutations made
before an error persist, matching the `&mut` receivers); `saturating_sub`
is `Nat` subtraction; the `unwrap()` on the freshly deployed token is
modelled as the `none` (panic) branch, though it cannot fire.
`confirmations` feeds only the unmodelled log record's status. -/
def bridge_from_ethereum (b : ERC20Bridge) (registry : QRC20Registry)
    (eth_token user amount : Nat) (token_name token_symbol : String)
    (decimals _confirmations : Nat) :
    Option ((Except QRC20Error Nat) × ERC20Bridge × QRC20Registry) :=
  let fee := b.calculate_bridge_fee amount
  let net_amount := amount - fee
  if net_amount = 0 then
    some (.error (.EVMExecutionFailed "Amount too small after fees"), b, registry)
  else
    match hmGet b.eth_to_qora_mapping eth_token with
    | some existing_token =>
        match hmGet registry.tokens existing_token with
        | none => some (.error .TokenNotFound, b, registry)
        | some token =>
            match token.mint token.owner user net_amount with
            | .error e => some (.error e, b, registry)
            | .ok (token1, _ev) =>
                let registry1 := { registry with
                  tokens := hmInsert registry.tokens existing_token token1 }
                let locked := hmGetD b.locked_eth_tokens eth_token 0
                let b1 := { b with
                  locked_eth_tokens := hmInsert b.locked_eth_tokens eth_token (locked + amount) }
                let minted := hmGetD b1.minted_qora_tokens existing_token 0
                let b2 := { b1 with
                  minted_qora_tokens := hmInsert b1.minted_qora_tokens existing_token (minted + net_amount) }
                some (.ok existing_token, b2, registry1)
    | none =>
        match registry.deploy_token user ("Bridged " ++ token_name)
            ("b" ++ token_symbol) decimals 0 with
        | .error e => some (.error e, b, registry)
        | .ok (registry1, qora_token) =>
            let b1 := { b with
              eth_to_qora_mapping := hmInsert b.eth_to_qora_mapping eth_token qora_token,
              qora_to_eth_mapping := hmInsert b.qora_to_eth_mapping qora_token eth_token }
            match hmGet registry1.tokens qora_token with
            | none => none
            | some token =>
                match token.mint token.owner user net_amount with
                | .error e => some (.error e, b1, registry1)
                | .ok (token1, _ev) =>
                    let registry2 := { registry1 with
                      tokens := hmInsert registry1.tokens qora_token token1 }
                    let locked := hmGetD b1.locked_eth_tokens eth_token 0
                    let b2 := { b1 with
                      locked_eth_tokens := hmInsert b1.locked_eth_tokens eth_token (locked + amount) }
                    let minted := hmGetD b2.minted_qora_tokens qora_token 0
                    let b3 := { b2 with
                      minted_qora_tokens := hmInsert b2.minted_qora_tokens qora_token (minted + net_amount) }
                    some (.ok qora_token, b3, registry2)

/-- `ERC20Bridge::bridge_to_ethereum`. The burn happens before the
locked-funds check, so the insufficient-locked error is returned with the
registry already mutated; `registry.get_token_mut(qora_token).unwrap()` is
the second lookup, its `None` case the panic branch. -/
def bridge_to_ethereum (b : ERC20Bridge) (registry : QRC20Registry)
    (qora_token user amount : Nat) :
    Option ((Except QRC20Error Nat) × ERC20Bridge × QRC20Registry) :=
  match hmGet b.qora_to_eth_mapping qora_token with
  | none => some (.error (.EVMExecutionFailed "Token is not bridged from Ethereum"),
      b, registry)
  | some eth_token =>
      let fee := b.calculate_bridge_fee amount
      let net_amount := amount - fee
      if net_amount = 0 then
        some (.error (.EVMExecutionFailed "Amount too small after fees"), b, registry)
      else
        match hmGet registry.tokens qora_token with
        | none => some (.error .TokenNotFound, b, registry)
        | some token =>
            if token.balance_of user < amount then
              some (.error (.InsufficientBalance amount (token.balance_of user)),
                b, registry)
            else
              match hmGet registry.tokens qora_token with
              | none => none
              | some token2 =>
                  match token2.burn user amount with
                  | .error e => some (.error e, b, registry)
                  | .ok (token3, _ev) =>
                      let registry1 := { registry with
                        tokens := hmInsert registry.tokens qora_token token3 }
                      let locked := hmGetD b.locked_eth_tokens eth_token 0
                      if locked < net_amount then
                        some (.error (.EVMExecutionFailed "Insufficient locked tokens"),
                          b, registry1)
                      else
                        let b1 := { b with
                          locked_eth_tokens := hmInsert b.locked_eth_tokens eth_token (locked - net_amount) }
                        let minted := hmGetD b1.minted_qora_tokens qora_token 0
                        let b2 := { b1 with
                          minted_qora_tokens := hmInsert b1.minted_qora_tokens qora_token (minted - amount) }
                        some (.ok eth_token, b2, registry1)

/-- C3 (amended): `bridge_to_ethereum` fails in each of the claimed cases —
no external pairing, zero net amount after fee, insufficient user balance,
insufficient locked external funds. The first three errors are raised
before any mutation and leave the bridge and registry exactly as they were;
but the insufficient-locked-funds check runs only AFTER the user's tokens
have been burned, so that error is returned with the registry already
holding the burned token state (bridge counters unchanged) — the call is
not an atomic no-op on that failure path. -/
theorem bridge_to_ethereum_error_behavior
    (b : ERC20Bridge) (r : QRC20Registry) (q user amount : Nat) :
    (hmGet b.qora_to_eth_mapping q = none →
      bridge_to_ethereum b r q user amount
        = some (.error (.EVMExecutionFailed "Token is not bridged from Ethereum"),
            b, r)) ∧
    (∀ e, hmGet b.qora_to_eth_mapping q = some e →
      amount - b.calculate_bridge_fee amount = 0 →
      bridge_to_ethereum b r q user amount
        = some (.error (.EVMExecutionFailed "Amount too small after fees"), b, r)) ∧
    (∀ e tok, hmGet b.qora_to_eth_mapping q = some e →
      amount - b.calculate_bridge_fee amount ≠ 0 →
      hmGet r.tokens q = some tok →
      tok.balance_of user < amount →
      bridge_to_ethereum b r q user amount
        = some (.error (.InsufficientBalance amount (tok.balance_of user)), b, r)) ∧
    (∀ e tok tok1 ev, hmGet b.qora_to_eth_mapping q = some e →
      amount - b.calculate_bridge_fee amount ≠ 0 →
      hmGet r.tokens q = some tok →
      ¬ tok.balance_of user < amount →
      tok.burn user amount = .ok (tok1, ev) →
      hmGetD b.locked_eth_tokens e 0 < amount - b.calculate_bridge_fee amount →
      bridge_to_ethereum b r q user amount
        = some (.error (.EVMExecutionFailed "Insufficient locked tokens"), b,
            { r with tokens := hmInsert r.tokens q tok1 })) := by
  refine ⟨?_, ?_, ?_, ?_⟩
  · intro hq
    simp [bridge_to_ethereum, hq]
  · intro e hq hnet
    simp [bridge_to_ethereum, hq, hnet]
  · intro e tok hq hnet htok hbal
    simp [bridge_to_ethereum, hq, hnet, htok, hbal]
  · intro e tok tok1 ev hq hnet htok hbal hburn hlock
    simp [bridge_to_ethereum, hq, hnet, htok, hbal, hburn, hlock]

/-- The wrapped token of the C3 counterexample: user 7 holds the full
supply of 100. -/
def c3Tok : QRC20Token :=
  { QRC20Token.new "B" "B" 0 100 7 with contract_address := 2000 }

/-- The registry of the C3 counterexample. -/
def c3Reg : QRC20Registry where
  tokens := [(2000, c3Tok)]
  symbol_to_address := [("B", 2000)]
  name_to_address := [("B", 2000)]
  next_contract_id := 2001
  registry_owner := 0

/-- The bridge of the C3 counterexample: token 2000 is paired with external
token 555, the fee is zero, and no external funds are locked. -/
def c3Bridge : ERC20Bridge where
  eth_to_qora_mapping := [(555, 2000)]
  qora_to_eth_mapping := [(2000, 555)]
  locked_eth_tokens := []
  minted_qora_tokens := [(2000, 100)]
  bridge_operators := []
  min_confirmations := 12
  bridge_fee_bp := 0
  bridge_treasury := 0

/-- The token after the burn that precedes the failing locked-funds check. -/
def c3TokBurned : QRC20Token :=
  { c3Tok with balances := [(7, 0)], total_supply := 0 }

/-- C3 counterexample: with no locked external funds, the call returns the
insufficient-locked-funds error, yet the returned registry differs from the
input registry — the user's 100 tokens were burned before the check, so the
error path is not an atomic no-op. -/
theorem bridge_to_ethereum_burns_despite_error :
    bridge_to_ethereum c3Bridge c3Reg 2000 7 100
      = some (.error (.EVMExecutionFailed "Insufficient locked tokens"), c3Bridge,
          { c3Reg with tokens := [(2000, c3TokBurned)] }) ∧
    { c3Reg with tokens := [(2000, c3TokBurned)] } ≠ c3Reg := by
  constructor
  · rfl
  · decide

/-- Witness for the amended C3: the no-pairing case fails and is a no-op. -/
theorem bridge_to_ethereum_error_behavior_witness :
    bridge_to_ethereum ERC20Bridge.newBridge QRC20Registry.newRegistry 1 2 50
      = some (.error (.EVMExecutionFailed "Token is not bridged from Ethereum"),
          ERC20Bridge.newBridge, QRC20Registry.newRegistry) :=
  (bridge_to_ethereum_error_behavior ERC20Bridge.newBridge
    QRC20Registry.newRegistry 1 2 50).1 (by rfl)

/-! ## Bridge lock/burn sequences and the locked ≥ minted invariant (C4) -/

theorem hmGetD_hmInsert_self {α : Type} [DecidableEq α]
    (m : List (α × Nat)) (k : α) (v : Nat) :
    hmGetD (hmInsert m k v) k 0 = v := by
  simp [hmGetD, hmGet_hmInsert_self]

theorem hmGetD_hmInsert_ne {α : Type} [DecidableEq α]
    (m : List (α × Nat)) (k k' : α) (v : Nat) (h : k ≠ k') :
    hmGetD (hmInsert m k v) k' 0 = hmGetD m k' 0 := by
  simp [hmGetD, hmGet_hmInsert_ne _ _ _ _ h]

theorem deploy_token_advanced_ok_spec (r : QRC20Registry) (deployer : Nat)
    (nm sym : String) (dec ts : Nat) (ms : Option Nat) (mi bu : Option Bool)
    (r1 : QRC20Registry) (A : Nat)
    (h : r.deploy_token_advanced deployer nm sym dec ts ms mi bu = .ok (r1, A)) :
    A = r.next_contract_id ∧ r1.next_contract_id = r.next_contract_id + 1 := by
  revert h
  unfold QRC20Registry.deploy_token_advanced
  split_ifs with h1 h2
  · intro h; cases h
  · intro h; cases h
  · intro h
    simp only [Except.ok.injEq, Prod.mk.injEq] at h
    obtain ⟨hr, hA⟩ := h
    subst hA
    subst hr
    exact ⟨rfl, rfl⟩

/-- One successful bridge operation: a lock (`bridge_from_ethereum`) or a
burn (`bridge_to_ethereum`). -/
inductive BridgeOp where
  | lock (eth_token user amount : Nat) (token_name token_symbol : String)
      (decimals confirmations : Nat)
  | burn (qora_token user amount : Nat)
  deriving DecidableEq, Repr

/-- Apply one bridge operation, keeping only successful runs (`none` for an
error or panic — the claim quantifies over sequences of successful
operations). -/
def stepB (s : ERC20Bridge × QRC20Registry) : BridgeOp →
    Option (ERC20Bridge × QRC20Registry)
  | .lock e u a nm sym d c =>
      match bridge_from_ethereum s.1 s.2 e u a nm sym d c with
      | some (.ok _, b1, r1) => some (b1, r1)
      | _ => none
  | .burn q u a =>
      match bridge_to_ethereum s.1 s.2 q u a with
      | some (.ok _, b1, r1) => some (b1, r1)
      | _ => none

/-- Run a sequence of successful bridge operations. -/
def execB (s : ERC20Bridge × QRC20Registry) :
    List BridgeOp → Option (ERC20Bridge × QRC20Registry)
  | [] => some s
  | op :: rest =>
      match stepB s op with
      | none => none
      | some s1 => execB s1 rest

/-- The inductive bridge invariant: the two mappings are mutually inverse,
every mapped wrapped address was allocated by the registry (is below
`next_contract_id`), unallocated addresses have no minted balance, and the
minted amount of each pair never exceeds its locked amount. -/
def bridgeInv (s : ERC20Bridge × QRC20Registry) : Prop :=
  (∀ e q, hmGet s.1.eth_to_qora_mapping e = some q →
    hmGet s.1.qora_to_eth_mapping q = some e) ∧
  (∀ q e, hmGet s.1.qora_to_eth_mapping q = some e →
    hmGet s.1.eth_to_qora_mapping e = some q) ∧
  (∀ e q, hmGet s.1.eth_to_qora_mapping e = some q → q < s.2.next_contract_id) ∧
  (∀ q, s.2.next_contract_id ≤ q → hmGetD s.1.minted_qora_tokens q 0 = 0) ∧
  (∀ e q, hmGet s.1.eth_to_qora_mapping e = some q →
    hmGetD s.1.minted_qora_tokens q 0 ≤ hmGetD s.1.locked_eth_tokens e 0)

theorem bridgeInv_lock (b : ERC20Bridge) (r : QRC20Registry)
    (e u a : Nat) (nm sym : String) (d c : Nat)
    (s1 : ERC20Bridge × QRC20Registry)
    (hinv : bridgeInv (b, r))
    (h : stepB (b, r) (.lock e u a nm sym d c) = some s1) :
    bridgeInv s1 := by
  obtain ⟨i1, i2, i3, i4, i5⟩ := hinv
  have j1 : ∀ e0 q0, hmGet b.eth_to_qora_mapping e0 = some q0 →
      hmGet b.qora_to_eth_mapping q0 = some e0 := i1
  have j2 : ∀ q0 e0, hmGet b.qora_to_eth_mapping q0 = some e0 →
      hmGet b.eth_to_qora_mapping e0 = some q0 := i2
  have j3 : ∀ e0 q0, hmGet b.eth_to_qora_mapping e0 = some q0 →
      q0 < r.next_contract_id := i3
  have j4 : ∀ q0, r.next_contract_id ≤ q0 →
      hmGetD b.minted_qora_tokens q0 0 = 0 := i4
  have j5 : ∀ e0 q0, hmGet b.eth_to_qora_mapping e0 = some q0 →
      hmGetD b.minted_qora_tokens q0 0 ≤ hmGetD b.locked_eth_tokens e0 0 := i5
  clear i1 i2 i3 i4 i5
  revert h
  simp only [stepB, bridge_from_ethereum]
  by_cases hnet : a - b.calculate_bridge_fee a = 0
  · simp [hnet]
  · simp only [if_neg hnet]
    cases hq : hmGet b.eth_to_qora_mapping e with
    | some q0 =>
        cases ht : hmGet r.tokens q0 with
        | none => simp [ht]
        | some token =>
            simp only [ht]
            cases hm : token.mint token.owner u (a - b.calculate_bridge_fee a) with
            | error e1 => simp [hm]
            | ok p =>
                obtain ⟨token1, ev⟩ := p
                simp only [hm]
                intro h
                simp only [Option.some.injEq] at h
                subst h
                refine ⟨j1, j2, j3, ?_, ?_⟩
                · intro q3 hq3
                  dsimp only at hq3 ⊢
                  have hlt := j3 e q0 hq
                  have hne : q0 ≠ q3 := by omega
                  rw [hmGetD_hmInsert_ne _ _ _ _ hne]
                  exact j4 q3 hq3
                · intro e2 q2 hpair
                  dsimp only at hpair ⊢
                  by_cases he2 : e = e2
                  · subst he2
                    rw [hq] at hpair
                    injection hpair with hpair
                    subst hpair
                    rw [hmGetD_hmInsert_self, hmGetD_hmInsert_self]
                    have h5 := j5 e q0 hq
                    have hfee : a - b.calculate_bridge_fee a ≤ a := Nat.sub_le _ _
                    omega
                  · have hne : q0 ≠ q2 := by
                      intro heq
                      have h1 := j1 e q0 hq
                      have h2 := j1 e2 q2 hpair
                      rw [heq] at h1
                      rw [h1] at h2
                      injection h2 with h3
                      exact he2 h3
                    rw [hmGetD_hmInsert_ne _ _ _ _ hne,
                      hmGetD_hmInsert_ne _ _ _ _ he2]
                    exact j5 e2 q2 hpair
    | none =>
        simp only [QRC20Registry.deploy_token]
        cases hd : r.deploy_token_advanced u ("Bridged " ++ nm) ("b" ++ sym)
            d 0 none (some true) (some true) with
        | error e1 => simp [hd]
        | ok p =>
            obtain ⟨r1, A⟩ := p
            obtain ⟨hA, hnext⟩ := deploy_token_advanced_ok_spec r u
              ("Bridged " ++ nm) ("b" ++ sym) d 0 none (some true) (some true)
              r1 A hd
            subst hA
            simp only [hd]
            cases htk : hmGet r1.tokens r.next_contract_id with
            | none => simp [htk]
            | some token =>
                simp only [htk]
                cases hm : token.mint token.owner u (a - b.calculate_bridge_fee a) with
                | error e1 => simp [hm]
                | ok p2 =>
                    obtain ⟨token1, ev⟩ := p2
                    simp only [hm]
                    intro h
                    simp only [Option.some.injEq] at h
                    subst h
                    refine ⟨?_, ?_, ?_, ?_, ?_⟩
                    · intro e2 q2 hpair
                      dsimp only at hpair ⊢
                      by_cases he2 : e = e2
                      · subst he2
                        rw [hmGet_hmInsert_self] at hpair
                        injection hpair with hpair
                        subst hpair
                        rw [hmGet_hmInsert_self]
                      · rw [hmGet_hmInsert_ne _ _ _ _ he2] at hpair
                        have hq2lt := j3 e2 q2 hpair
                        have hne : r.next_contract_id ≠ q2 := by omega
                        rw [hmGet_hmInsert_ne _ _ _ _ hne]
                        exact j1 e2 q2 hpair
                    · intro q2 e2 hpair
                      dsimp only at hpair ⊢
                      by_cases hq2 : r.next_contract_id = q2
                      · subst hq2
                        rw [hmGet_hmInsert_self] at hpair
                        injection hpair with hpair
                        subst hpair
                        rw [hmGet_hmInsert_self]
                      · rw [hmGet_hmInsert_ne _ _ _ _ hq2] at hpair
                        have h2 := j2 q2 e2 hpair
                        have he2 : e ≠ e2 := by
                          intro heq
                          rw [← heq] at h2
                          rw [hq] at h2
                          cases h2
                        rw [hmGet_hmInsert_ne _ _ _ _ he2]
                        exact h2
                    · intro e2 q2 hpair
                      dsimp only at hpair ⊢
                      rw [hnext]
                      by_cases he2 : e = e2
                      · subst he2
                        rw [hmGet_hmInsert_self] at hpair
                        injection hpair with hpair
                        omega
                      · rw [hmGet_hmInsert_ne _ _ _ _ he2] at hpair
                        have := j3 e2 q2 hpair
                        omega
                    · intro q3 hq3
                      dsimp only at hq3 ⊢
                      rw [hnext] at hq3
                      have hne : r.next_contract_id ≠ q3 := by omega
                      rw [hmGetD_hmInsert_ne _ _ _ _ hne]
                      exact j4 q3 (by omega)
                    · intro e2 q2 hpair
                      dsimp only at hpair ⊢
                      by_cases he2 : e = e2
                      · subst he2
                        rw [hmGet_hmInsert_self] at hpair
                        injection hpair with hpair
                        subst hpair
                        rw [hmGetD_hmInsert_self, hmGetD_hmInsert_self]
                        have hm0 : hmGetD b.minted_qora_tokens r.next_contract_id 0 = 0 :=
                          j4 r.next_contract_id (Nat.le_refl _)
                        have hfee : a - b.calculate_bridge_fee a ≤ a :=
                          Nat.sub_le _ _
                        omega
                      · rw [hmGet_hmInsert_ne _ _ _ _ he2] at hpair
                        have hq2lt := j3 e2 q2 hpair
                        have hne : r.next_contract_id ≠ q2 := by omega
                        rw [hmGetD_hmInsert_ne _ _ _ _ hne,
                          hmGetD_hmInsert_ne _ _ _ _ he2]
                        exact j5 e2 q2 hpair

theorem bridgeInv_burn (b : ERC20Bridge) (r : QRC20Registry)
    (q u a : Nat) (s1 : ERC20Bridge × QRC20Registry)
    (hinv : bridgeInv (b, r))
    (h : stepB (b, r) (.burn q u a) = some s1) :
    bridgeInv s1 := by
  obtain ⟨i1, i2, i3, i4, i5⟩ := hinv
  have j1 : ∀ e0 q0, hmGet b.eth_to_qora_mapping e0 = some q0 →
      hmGet b.qora_to_eth_mapping q0 = some e0 := i1
  have j2 : ∀ q0 e0, hmGet b.qora_to_eth_mapping q0 = some e0 →
      hmGet b.eth_to_qora_mapping e0 = some q0 := i2
  have j3 : ∀ e0 q0, hmGet b.eth_to_qora_mapping e0 = some q0 →
      q0 < r.next_contract_id := i3
  have j4 : ∀ q0, r.next_contract_id ≤ q0 →
      hmGetD b.minted_qora_tokens q0 0 = 0 := i4
  have j5 : ∀ e0 q0, hmGet b.eth_to_qora_mapping e0 = some q0 →
      hmGetD b.minted_qora_tokens q0 0 ≤ hmGetD b.locked_eth_tokens e0 0 := i5
  clear i1 i2 i3 i4 i5
  revert h
  simp only [stepB, bridge_to_ethereum]
  cases hq : hmGet b.qora_to_eth_mapping q with
  | none => simp
  | some eth =>
      by_cases hnet : a - b.calculate_bridge_fee a = 0
      · simp [hnet]
      · simp only [if_neg hnet]
        cases ht : hmGet r.tokens q with
        | none => simp [ht]
        | some token =>
            simp only [ht]
            by_cases hbal : token.balance_of u < a
            · simp [hbal]
            · simp only [if_neg hbal]
              cases hb : token.burn u a with
              | error e1 => simp [hb]
              | ok p =>
                  obtain ⟨token3, ev⟩ := p
                  simp only [hb]
                  by_cases hlock : hmGetD b.locked_eth_tokens eth 0
                      < a - b.calculate_bridge_fee a
                  · simp [hlock]
                  · simp only [if_neg hlock]
                    intro h
                    simp only [Option.some.injEq] at h
                    subst h
                    refine ⟨j1, j2, j3, ?_, ?_⟩
                    · intro q3 hq3
                      dsimp only at hq3 ⊢
                      have hqlt : q < r.next_contract_id := j3 eth q (j2 q eth hq)
                      have hne : q ≠ q3 := by omega
                      rw [hmGetD_hmInsert_ne _ _ _ _ hne]
                      exact j4 q3 hq3
                    · intro e2 q2 hpair
                      dsimp only at hpair ⊢
                      by_cases hq2 : q = q2
                      · subst hq2
                        have he2 : e2 = eth := by
                          have h1 := j1 e2 q hpair
                          rw [hq] at h1
                          injection h1 with h1e
                          exact h1e.symm
                        subst he2
                        rw [hmGetD_hmInsert_self, hmGetD_hmInsert_self]
                        have h5 := j5 e2 q hpair
                        have hfee : a - b.calculate_bridge_fee a ≤ a := Nat.sub_le _ _
                        omega
                      · have he2 : eth ≠ e2 := by
                          intro heq
                          have h2 := j2 q eth hq
                          rw [heq] at h2
                          rw [hpair] at h2
                          injection h2 with h3
                          exact hq2 h3.symm
                        rw [hmGetD_hmInsert_ne _ _ _ _ hq2,
                          hmGetD_hmInsert_ne _ _ _ _ he2]
                        exact j5 e2 q2 hpair

theorem bridgeInv_exec (ops : List BridgeOp) (s : ERC20Bridge × QRC20Registry)
    (hinv : bridgeInv s) (s1 : ERC20Bridge × QRC20Registry)
    (h : execB s ops = some s1) : bridgeInv s1 := by
  induction ops generalizing s with
  | nil =>
      simp only [execB, Option.some.injEq] at h
      subst h
      exact hinv
  | cons op rest ih =>
      revert h
      simp only [execB]
      cases hstep : stepB s op with
      | none => intro h; cases h
      | some s2 =>
          intro h
          apply ih s2 ?_ h
          obtain ⟨b, r⟩ := s
          cases op with
          | lock e u a nm sym d c => exact bridgeInv_lock b r e u a nm sym d c s2 hinv hstep
          | burn q u a => exact bridgeInv_burn b r q u a s2 hinv hstep

theorem bridgeInv_initial : bridgeInv (ERC20Bridge.newBridge, QRC20Registry.newRegistry) := by
  refine ⟨?_, ?_, ?_, ?_, ?_⟩ <;>
    simp [ERC20Bridge.newBridge, QRC20Registry.newRegistry, hmGet, hmGetD]

/-- C4: starting from a fresh bridge and registry, after every sequence of
successful lock (`bridge_from_ethereum`) and burn (`bridge_to_ethereum`)
operations, the locked amount of each external token is at least the minted
amount of its paired wrapped token (every prefix of a sequence is a
sequence, so this covers every observation point). -/
theorem bridge_locked_ge_minted (ops : List BridgeOp)
    (s1 : ERC20Bridge × QRC20Registry)
    (h : execB (ERC20Bridge.newBridge, QRC20Registry.newRegistry) ops = some s1) :
    ∀ e q, hmGet s1.1.eth_to_qora_mapping e = some q →
      hmGetD s1.1.minted_qora_tokens q 0 ≤ hmGetD s1.1.locked_eth_tokens e 0 := by
  obtain ⟨-, -, -, -, i5⟩ :=
    bridgeInv_exec ops (ERC20Bridge.newBridge, QRC20Registry.newRegistry)
      bridgeInv_initial s1 h
  exact i5

/-- The state reached by the C4 witness run: lock 1000 units of external
token 555 (fee 5, mint 995 of wrapped token 1000), then burn 500 (fee 2,
release 498). -/
def c4State : ERC20Bridge × QRC20Registry :=
  (execB (ERC20Bridge.newBridge, QRC20Registry.newRegistry)
    [BridgeOp.lock 555 7 1000 "USDC" "USDC" 6 12, BridgeOp.burn 1000 7 500]).getD
    (ERC20Bridge.newBridge, QRC20Registry.newRegistry)

/-- Witness for C4. -/
theorem bridge_locked_ge_minted_witness :
    hmGetD c4State.1.minted_qora_tokens 1000 0
      ≤ hmGetD c4State.1.locked_eth_tokens 555 0 :=
  bridge_locked_ge_minted
    [BridgeOp.lock 555 7 1000 "USDC" "USDC" 6 12, BridgeOp.burn 1000 7 500]
    c4State (by rfl) 555 1000 (by rfl)

end QoraNet
